import Mathlib

/-!
Verification of the self-expiring arithmetic-result cache of `http-math`.

The embedding follows `src/main.go` (the current revision: `cacheStruct`
with a lookup hash, a recency list from `container/list`, and the
`get`/`set`/`cleanup`/`getAnswer` functions) and, for the cache-less
compute path, `src/unnamed/part_000` (`doMath`).

Modelling conventions:
- `float64` values are modelled as rationals (`ℚ`); the arithmetic switch
  is translated verbatim, so both the cached and the cache-less pipeline
  share the same abstract operations.
- Timestamps (`time.Time`) are natural-number ticks; `time.Before` is `<`,
  and `now.Add(time.Second * -cacheExpireSeconds)` turns the expiry test
  `value.time.Before(expireTime)` into `value.time + cacheExpireSeconds < now`
  (the same comparison over unbounded integers, written without truncating
  natural subtraction).
- Go heap pointers are explicit: `*cacheEntry` values live in `heap`
  addressed by numeric ids, and `container/list` `*Element` nodes live in
  `listElems` (node id to entry pointer = `Element.Value`) with the node
  order in `listOrder`.  `fresh` is the allocator counter.
- Go maps are association lists with first-match lookup; insertion
  replaces any previous binding of the key.
- `fmt.Sprintf("%s;%v;%v", op, x, y)` is modelled by `fingerprint`, with
  the `%v` float formatting replaced by an explicit deterministic rational
  formatter that keeps the two properties the code relies on: it is
  injective and never produces the delimiter character.
-/

deriving instance DecidableEq for Except

/-- Association-list lookup, first binding wins (models Go map indexing). -/
def alookup {α β : Type} [DecidableEq α] : List (α × β) → α → Option β
  | [], _ => none
  | (a, b) :: t, k => if a = k then some b else alookup t k

/-- Remove every binding of a key (models `delete(m, k)`). -/
def aerase {α β : Type} [DecidableEq α] : List (α × β) → α → List (α × β)
  | [], _ => []
  | (a, b) :: t, k => if a = k then aerase t k else (a, b) :: aerase t k

/-- Insert or overwrite a binding (models `m[k] = v`). -/
def ainsert {α β : Type} [DecidableEq α] (m : List (α × β)) (k : α) (v : β) :
    List (α × β) :=
  (k, v) :: aerase m k

/-- Decimal digit to character, as produced by numeric formatting. -/
def digitChar : Nat → Char
  | 0 => '0'
  | 1 => '1'
  | 2 => '2'
  | 3 => '3'
  | 4 => '4'
  | 5 => '5'
  | 6 => '6'
  | 7 => '7'
  | 8 => '8'
  | 9 => '9'
  | _ => '?'

/-- Character back to decimal digit (used only to prove injectivity). -/
def charToDigit : Char → Nat
  | '0' => 0
  | '1' => 1
  | '2' => 2
  | '3' => 3
  | '4' => 4
  | '5' => 5
  | '6' => 6
  | '7' => 7
  | '8' => 8
  | '9' => 9
  | _ => 0

/-- Big-endian decimal digits of a positive number; the first argument is
structural-recursion fuel (`n` itself is always enough fuel). -/
def natDigitsAux : Nat → Nat → List Char
  | 0, _ => []
  | _ + 1, 0 => []
  | fuel + 1, n + 1 => natDigitsAux fuel ((n + 1) / 10) ++ [digitChar ((n + 1) % 10)]

/-- Decimal rendering of a natural number. -/
def fmtNat (n : Nat) : String :=
  if n = 0 then "0" else String.mk (natDigitsAux n n)

/-- Deterministic rendering of a rational, modelling Go's `%v` formatting of a
`float64`: an optional sign, then numerator and denominator digits separated
by a character that digits cannot produce.  Like the Go formatting it is
injective and never contains the `;` delimiter of the fingerprint. -/
def fmtRat (q : ℚ) : String :=
  (if q.num < 0 then "-" else "") ++ fmtNat q.num.natAbs ++ "/" ++ fmtNat q.den

/-- Request fingerprint, from `getAnswer` in `src/main.go`:
`reqString := fmt.Sprintf("%s;%v;%v", op, x, y)`. -/
def fingerprint (op : String) (x y : ℚ) : String :=
  op ++ ";" ++ fmtRat x ++ ";" ++ fmtRat y

/-- Accumulating decimal value of a character list (left inverse of the
digit rendering, used only in proofs). -/
def charsVal (l : List Char) : Nat :=
  l.foldl (fun a c => 10 * a + charToDigit c) 0

/-- TTL constant: `const cacheExpireSeconds = 60` in `src/main.go`. -/
def cacheExpireSeconds : Nat := 60

/-- One `cacheEntry` object (`src/main.go`): fingerprint key, memoized
answer, last-touched timestamp, and the pointer to its `list.Element` node
(`none` models the transient nil before `set` links the node). -/
structure cacheEntry where
  key : String
  answer : ℚ
  time : Nat
  element : Option Nat
  deriving DecidableEq, Repr

/-- The cache (`cacheStruct` in `src/main.go`).  `heap` is the Go heap of
`cacheEntry` objects (entry-pointer id to object); `hash` is the lookup map
(key to entry pointer); `listElems` and `listOrder` together model the
`container/list` recency list: node id to `Element.Value` entry pointer,
and the front-to-back node order.  `fresh` allocates new ids.  The mutex is
not modelled: every operation runs under the single lock, so the semantics
is the sequential one. -/
structure cacheStruct where
  heap : List (Nat × cacheEntry)
  hash : List (String × Nat)
  listElems : List (Nat × Nat)
  listOrder : List Nat
  fresh : Nat
  deriving DecidableEq, Repr

/-- `newCache` in `src/main.go`: empty hash, initialized empty list. -/
def newCache : cacheStruct :=
  { heap := [], hash := [], listElems := [], listOrder := [], fresh := 0 }

/-- `list.MoveToBack(e)`: if the node belongs to the list, unlink it and
relink it at the back; otherwise do nothing. -/
def moveToBack (l : List Nat) (e : Nat) : List Nat :=
  if e ∈ l then l.erase e ++ [e] else l

/-- Entry stored at a list node: follow `Element.Value` into the heap. -/
def elemEntry (s : cacheStruct) (e : Nat) : Option cacheEntry :=
  (alookup s.listElems e).bind (alookup s.heap)

/-- Entries of the recency list, front to back. -/
def entriesOf (s : cacheStruct) : List cacheEntry :=
  s.listOrder.filterMap (elemEntry s)

/-- Last-touched timestamps along the recency list, front to back. -/
def listTimes (s : cacheStruct) : List Nat :=
  (entriesOf s).map (fun en => en.time)

/-- `(c *cacheStruct) get(key)` from `src/main.go` lines 199-216: look the
key up in the hash; on a hit read the answer, update the timestamp to now,
and move the entry's node to the back of the list.  There is no expiry
check.  Returns (value, found, updated cache).  The two impossible `none`
fallbacks model states the Go runtime cannot produce (a dangling entry
pointer, and a nil `element`, which `MoveToBack` would turn into a panic);
the reachability invariants below show they are never taken. -/
def cacheStruct.get (c : cacheStruct) (key : String) (now : Nat) :
    ℚ × Bool × cacheStruct :=
  match alookup c.hash key with
  | none => (0, false, c)
  | some p =>
    match alookup c.heap p with
    | none => (0, false, c)
    | some item =>
      let c1 : cacheStruct := { c with heap := ainsert c.heap p { item with time := now } }
      match item.element with
      | none => (item.answer, true, c1)
      | some e => (item.answer, true, { c1 with listOrder := moveToBack c1.listOrder e })

/-- `(c *cacheStruct) set(key, value)` from `src/main.go` lines 218-225:
allocate a fresh entry stamped now, store it in the hash, push a new node
holding it at the back of the list, and link the entry to its node. -/
def cacheStruct.set (c : cacheStruct) (key : String) (value : ℚ) (now : Nat) :
    cacheStruct :=
  let p := c.fresh
  let e := c.fresh + 1
  { heap := ainsert c.heap p { key := key, answer := value, time := now, element := some e },
    hash := ainsert c.hash key p,
    listElems := ainsert c.listElems e p,
    listOrder := c.listOrder ++ [e],
    fresh := c.fresh + 2 }

/-- Loop body of `(c *cacheStruct) cleanup()` from `src/main.go` lines
227-246: walk the list from the front; while the current entry is strictly
older than the TTL, unlink its node, delete its key from the hash, and
continue with the saved next node; stop at the first non-expired entry.
The walk list is the snapshot of node ids still to visit. -/
def cleanupLoop (now : Nat) : cacheStruct → List Nat → cacheStruct
  | c, [] => c
  | c, e :: rest =>
    match alookup c.listElems e with
    | none => c
    | some p =>
      match alookup c.heap p with
      | none => c
      | some value =>
        if value.time + cacheExpireSeconds < now then
          cleanupLoop now
            { c with
              listOrder := c.listOrder.erase e,
              listElems := aerase c.listElems e,
              hash := aerase c.hash value.key }
            rest
        else c

/-- `(c *cacheStruct) cleanup()`: run the front-to-back expiry walk. -/
def cacheStruct.cleanup (c : cacheStruct) (now : Nat) : cacheStruct :=
  cleanupLoop now c c.listOrder

/-- The cache-less arithmetic of `doMath` in `src/unnamed/part_000` lines
43-83: the same `switch op` computing the answer directly, with the zero
initial value of `var answer float64` for an unknown operation.  Division
is rational division (`x / 0 = 0` in `ℚ`; the caching pipeline rejects
that case before computing). -/
def doMathPure (op : String) (x y : ℚ) : ℚ :=
  if op = "add" then x + y
  else if op = "subtract" then x - y
  else if op = "multiply" then x * y
  else if op = "divide" then x / y
  else 0

/-- `getAnswer(op, x, y)` from `src/main.go` lines 279-324: build the
fingerprint, then under the lock run cleanup, try the cache, and on a miss
compute the answer (rejecting division by zero and unknown operations
before any insertion) and store it.  Returns the Go triple
(answer, exists, err) as `Except` over (answer, cached), paired with the
cache state after the call.  The single `now` stands for the wall-clock
reads made during the call. -/
def getAnswer (op : String) (x y : ℚ) (now : Nat) (c0 : cacheStruct) :
    Except String (ℚ × Bool) × cacheStruct :=
  let reqString := fingerprint op x y
  let c1 := c0.cleanup now
  let r := c1.get reqString now
  let cacheAnswer := r.1
  let found := r.2.1
  let c2 := r.2.2
  if found then
    (Except.ok (cacheAnswer, true), c2)
  else if op = "add" then
    (Except.ok (x + y, false), c2.set reqString (x + y) now)
  else if op = "subtract" then
    (Except.ok (x - y, false), c2.set reqString (x - y) now)
  else if op = "multiply" then
    (Except.ok (x * y, false), c2.set reqString (x * y) now)
  else if op = "divide" then
    if y = 0 then
      (Except.error "Cannot divide by zero", c2)
    else
      (Except.ok (x / y, false), c2.set reqString (x / y) now)
  else
    (Except.error ("Invalid operation: " ++ op), c2)

/-- Operation/operand combinations the miss path stores: one of the four
operations, with a nonzero divisor for division. -/
def validOp (op : String) (y : ℚ) : Prop :=
  op = "add" ∨ op = "subtract" ∨ op = "multiply" ∨ (op = "divide" ∧ y ≠ 0)

/-- One raw cache operation, for sequences that call `get`/`set`/`cleanup`
directly (the interface of section 6 of the spec). -/
inductive rawOp where
  | opGet (key : String)
  | opSet (key : String) (value : ℚ)
  | opCleanup
  deriving DecidableEq, Repr

/-- Apply one raw operation at a given time. -/
def applyRaw (c : cacheStruct) : rawOp × Nat → cacheStruct
  | (rawOp.opGet k, t) => (c.get k t).2.2
  | (rawOp.opSet k v, t) => c.set k v t
  | (rawOp.opCleanup, t) => c.cleanup t

/-- Run a sequence of timed raw operations from a starting state. -/
def runRaw (c : cacheStruct) (ops : List (rawOp × Nat)) : cacheStruct :=
  ops.foldl applyRaw c

/-- States reachable from `newCache` by raw `get`/`set`/`cleanup` calls
under a non-decreasing clock; the second component bounds every timestamp
used so far. -/
inductive rawReach : cacheStruct → Nat → Prop
  | init (t : Nat) : rawReach newCache t
  | step {s : cacheStruct} {t : Nat} (op : rawOp) {t' : Nat} :
      rawReach s t → t ≤ t' → rawReach (applyRaw s (op, t')) t'

/-- States reachable from `newCache` by the orchestrated request flow:
each step is one `getAnswer` call, under a non-decreasing clock. -/
inductive flowReach : cacheStruct → Nat → Prop
  | init (t : Nat) : flowReach newCache t
  | step {s : cacheStruct} {t : Nat} (op : String) (x y : ℚ) {t' : Nat} :
      flowReach s t → t ≤ t' → flowReach (getAnswer op x y t' s).2 t'

/-- One HTTP request to the math service, as it reaches `getAnswer`:
operation, the two parsed operands, and the wall-clock time of the call. -/
structure request where
  op : String
  x : ℚ
  y : ℚ
  time : Nat
  deriving DecidableEq, Repr

/-- Run a sequence of requests through the orchestrated flow, threading the
cache state (each request is one `getAnswer` call). -/
def flowRun (c : cacheStruct) (rs : List request) : cacheStruct :=
  rs.foldl (fun s r => (getAnswer r.op r.x r.y r.time s).2) c

/-- Pointer-level well-formedness of a cache state (holds for every state
raw operations can produce): list nodes are distinct; every node resolves
to a live entry that points back to that very node; every hash binding
resolves to a live entry carrying that key whose node is in the list and
holds the entry; and all allocated ids are below the allocator counter. -/
structure wfRaw (s : cacheStruct) : Prop where
  nodup : s.listOrder.Nodup
  elemOk : ∀ e ∈ s.listOrder, ∃ p en,
    alookup s.listElems e = some p ∧ alookup s.heap p = some en ∧
    en.element = some e
  hashOk : ∀ k p, alookup s.hash k = some p → ∃ en e,
    alookup s.heap p = some en ∧ en.key = k ∧ en.element = some e ∧
    e ∈ s.listOrder ∧ alookup s.listElems e = some p
  orderBound : ∀ e ∈ s.listOrder, e < s.fresh
  elemsBound : ∀ e p, alookup s.listElems e = some p → e < s.fresh ∧ p < s.fresh
  heapBound : ∀ p en, alookup s.heap p = some en → p < s.fresh
  hashBound : ∀ k p, alookup s.hash k = some p → p < s.fresh

/-- Invariant carried along raw-operation runs: well-formed pointers,
recency list sorted by last-touch time, and all timestamps at or below the
clock. -/
structure invRaw (s : cacheStruct) (t : Nat) : Prop where
  wf : wfRaw s
  sorted : List.Pairwise (fun a b => a ≤ b) (listTimes s)
  timesLe : ∀ en ∈ entriesOf s, en.time ≤ t

/-- Invariant carried along orchestrated-flow runs: the raw invariant,
plus hash-list completeness (every list node's entry is reachable through
the hash, so nothing is orphaned) and semantic correctness of every stored
answer (each hash key is the fingerprint of a valid request whose stored
answer is the pure arithmetic result). -/
structure invFlow (s : cacheStruct) (t : Nat) : Prop where
  raw : invRaw s t
  complete : ∀ e ∈ s.listOrder, ∀ p en,
    alookup s.listElems e = some p → alookup s.heap p = some en →
    alookup s.hash en.key = some p
  semantic : ∀ k p, alookup s.hash k = some p → ∀ en,
    alookup s.heap p = some en → ∃ op x y,
    validOp op y ∧ k = fingerprint op x y ∧ en.answer = doMathPure op x y

/-! ### Association-list lemmas -/

theorem alookup_aerase {α β : Type} [DecidableEq α] (m : List (α × β)) (k k' : α) :
    alookup (aerase m k) k' = if k' = k then none else alookup m k' := by
  induction m with
  | nil => simp only [aerase, alookup]; split <;> rfl
  | cons hd tl ih =>
    obtain ⟨a, b⟩ := hd
    by_cases hak : a = k
    · subst hak
      simp only [aerase, if_pos rfl, if_true]
      rw [ih]
      by_cases hk : k' = a
      · simp [hk]
      · have hna : ¬ a = k' := fun h => hk h.symm
        simp [hk, alookup, hna]
    · simp only [aerase, if_neg hak, alookup]
      by_cases hak' : a = k'
      · subst hak'
        have hk : ¬ (a = k) := hak
        have hk' : ¬ (a = k) := hak
        simp [if_pos rfl, hk]
      · simp only [if_neg hak']
        rw [ih]

theorem alookup_ainsert {α β : Type} [DecidableEq α] (m : List (α × β)) (k : α) (v : β)
    (k' : α) :
    alookup (ainsert m k v) k' = if k' = k then some v else alookup m k' := by
  simp only [ainsert, alookup, alookup_aerase]
  by_cases h : k = k'
  · subst h; simp
  · have h' : ¬ (k' = k) := fun hh => h hh.symm
    simp [h, h']

theorem alookup_ainsert_self {α β : Type} [DecidableEq α] (m : List (α × β)) (k : α)
    (v : β) :
    alookup (ainsert m k v) k = some v := by
  simp [alookup_ainsert]

theorem alookup_ainsert_ne {α β : Type} [DecidableEq α] (m : List (α × β)) (k : α)
    (v : β) {k' : α} (h : k' ≠ k) :
    alookup (ainsert m k v) k' = alookup m k' := by
  simp [alookup_ainsert, h]

/-! ### Decimal formatting: correctness and injectivity -/

theorem charToDigit_digitChar : ∀ d < 10, charToDigit (digitChar d) = d := by decide

theorem digitChar_mem : ∀ d < 10,
    digitChar d ∈ ['0', '1', '2', '3', '4', '5', '6', '7', '8', '9'] := by decide

theorem digit_chars_ne : ∀ c ∈ ['0', '1', '2', '3', '4', '5', '6', '7', '8', '9'],
    c ≠ ';' ∧ c ≠ '-' ∧ c ≠ '/' := by decide

theorem natDigitsAux_mem : ∀ fuel n : Nat, ∀ c ∈ natDigitsAux fuel n,
    c ∈ ['0', '1', '2', '3', '4', '5', '6', '7', '8', '9'] := by
  intro fuel
  induction fuel with
  | zero => intro n c hc; simp [natDigitsAux] at hc
  | succ fuel ih =>
    intro n c hc
    match n with
    | 0 => simp [natDigitsAux] at hc
    | m + 1 =>
      simp only [natDigitsAux, List.mem_append, List.mem_singleton] at hc
      rcases hc with hc | hc
      · exact ih _ c hc
      · subst hc
        exact digitChar_mem _ (Nat.mod_lt _ (by norm_num))

theorem natDigitsAux_val : ∀ fuel n : Nat, n ≤ fuel → ∀ a : Nat,
    (natDigitsAux fuel n).foldl (fun x c => 10 * x + charToDigit c) a =
      a * 10 ^ (natDigitsAux fuel n).length + n := by
  intro fuel
  induction fuel with
  | zero =>
    intro n hn a
    have : n = 0 := Nat.le_zero.mp hn
    subst this
    simp [natDigitsAux]
  | succ fuel ih =>
    intro n hn a
    match n with
    | 0 => simp [natDigitsAux]
    | m + 1 =>
      have hdiv_lt : (m + 1) / 10 < m + 1 := Nat.div_lt_self (Nat.succ_pos m) (by norm_num)
      have hdiv : (m + 1) / 10 ≤ fuel := by omega
      have hmod : (m + 1) % 10 < 10 := Nat.mod_lt _ (by norm_num)
      simp only [natDigitsAux, List.foldl_append, List.length_append, List.foldl_cons,
        List.foldl_nil, List.length_cons, List.length_nil]
      rw [ih _ hdiv a, charToDigit_digitChar _ hmod]
      have hpow : 10 ^ ((natDigitsAux fuel ((m + 1) / 10)).length + 1) =
          10 ^ (natDigitsAux fuel ((m + 1) / 10)).length * 10 := pow_succ 10 _
      have hdm : 10 * ((m + 1) / 10) + (m + 1) % 10 = m + 1 := by omega
      calc 10 * (a * 10 ^ (natDigitsAux fuel ((m + 1) / 10)).length + (m + 1) / 10) +
            (m + 1) % 10
          = a * (10 ^ (natDigitsAux fuel ((m + 1) / 10)).length * 10) +
            (10 * ((m + 1) / 10) + (m + 1) % 10) := by ring
        _ = a * 10 ^ ((natDigitsAux fuel ((m + 1) / 10)).length + 1) + (m + 1) := by
            rw [hpow, hdm]

theorem charsVal_fmtNat (n : Nat) : charsVal (fmtNat n).data = n := by
  by_cases h : n = 0
  · subst h; rfl
  · simp only [fmtNat, if_neg h]
    simpa [charsVal] using natDigitsAux_val n n le_rfl 0

theorem fmtNat_inj {m n : Nat} (h : fmtNat m = fmtNat n) : m = n := by
  have := congrArg (fun s => charsVal s.data) h
  simpa [charsVal_fmtNat] using this

theorem fmtNat_mem (n : Nat) : ∀ c ∈ (fmtNat n).data,
    c ∈ ['0', '1', '2', '3', '4', '5', '6', '7', '8', '9'] := by
  by_cases h : n = 0
  · subst h; intro c hc; simp [fmtNat] at hc; simp [hc]
  · simp only [fmtNat, if_neg h]
    intro c hc
    exact natDigitsAux_mem n n c hc

theorem fmtNat_ne_nil (n : Nat) : (fmtNat n).data ≠ [] := by
  by_cases h : n = 0
  · subst h; simp [fmtNat]
  · simp only [fmtNat, if_neg h]
    match n, h with
    | m + 1, _ =>
      simp [natDigitsAux]

theorem strData_ext {s t : String} (h : s.data = t.data) : s = t := by
  cases s; cases t; cases h; rfl

theorem sep_split_left {sep : Char} :
    ∀ (as cs : List Char) {bs ds : List Char},
      (∀ c ∈ as, c ≠ sep) → (∀ c ∈ cs, c ≠ sep) →
      as ++ sep :: bs = cs ++ sep :: ds → as = cs ∧ bs = ds := by
  intro as
  induction as with
  | nil =>
    intro cs bs ds _ hcs h
    cases cs with
    | nil => simpa using h
    | cons c cs' =>
      simp only [List.nil_append, List.cons_append, List.cons.injEq] at h
      exact absurd h.1.symm (hcs c (List.mem_cons_self c cs'))
  | cons a as' ih =>
    intro cs bs ds has hcs h
    cases cs with
    | nil =>
      simp only [List.cons_append, List.nil_append, List.cons.injEq] at h
      exact absurd h.1 (has a (List.mem_cons_self a as'))
    | cons c cs' =>
      simp only [List.cons_append, List.cons.injEq] at h
      obtain ⟨hac, h2⟩ := h
      obtain ⟨h3, h4⟩ := ih cs' (fun x hx => has x (List.mem_cons_of_mem a hx))
        (fun x hx => hcs x (List.mem_cons_of_mem c hx)) h2
      exact ⟨by rw [hac, h3], h4⟩

theorem sep_split_right {sep : Char} (as cs : List Char) {bs ds : List Char}
    (hbs : ∀ c ∈ bs, c ≠ sep) (hds : ∀ c ∈ ds, c ≠ sep)
    (h : as ++ sep :: bs = cs ++ sep :: ds) : as = cs ∧ bs = ds := by
  have hrev := congrArg List.reverse h
  simp only [List.reverse_append, List.reverse_cons, List.append_assoc,
    List.singleton_append] at hrev
  obtain ⟨h1, h2⟩ := sep_split_left _ _
    (fun c hc => hbs c (List.mem_reverse.mp hc))
    (fun c hc => hds c (List.mem_reverse.mp hc)) hrev
  exact ⟨List.reverse_inj.mp h2, List.reverse_inj.mp h1⟩

theorem fmtRat_data (q : ℚ) : (fmtRat q).data =
    ((if q.num < 0 then ['-'] else []) ++ (fmtNat q.num.natAbs).data) ++
      '/' :: (fmtNat q.den).data := by
  have hdash : ("-" : String).data = ['-'] := rfl
  have hslash : ("/" : String).data = ['/'] := rfl
  have hnil : ("" : String).data = [] := rfl
  by_cases h : q.num < 0 <;>
    simp [fmtRat, h, String.data_append, hdash, hslash, hnil, List.append_assoc]

theorem fmtNat_no_slash (n : Nat) : ∀ c ∈ (fmtNat n).data, c ≠ '/' :=
  fun c hc => (digit_chars_ne c (fmtNat_mem n c hc)).2.2

theorem fmtRat_no_semi (q : ℚ) : ∀ c ∈ (fmtRat q).data, c ≠ ';' := by
  intro c hc
  rw [fmtRat_data] at hc
  simp only [List.mem_append, List.mem_cons] at hc
  rcases hc with (hc | hc) | hc | hc
  · by_cases h : q.num < 0
    · rw [if_pos h] at hc
      simp only [List.mem_singleton] at hc
      subst hc; decide
    · rw [if_neg h] at hc
      simp at hc
  · exact (digit_chars_ne c (fmtNat_mem _ c hc)).1
  · subst hc; decide
  · exact (digit_chars_ne c (fmtNat_mem _ c hc)).1

theorem fmtRat_inj {q1 q2 : ℚ} (h : fmtRat q1 = fmtRat q2) : q1 = q2 := by
  have hd := congrArg String.data h
  rw [fmtRat_data, fmtRat_data] at hd
  have hslashfree1 := fmtNat_no_slash q1.num.natAbs
  have hslashfree2 := fmtNat_no_slash q2.num.natAbs
  have hfirst : ∀ n : Nat, ∀ l : List Char, (fmtNat n).data ++ l ≠ '-' :: l →
      True := fun _ _ _ => trivial
  by_cases h1 : q1.num < 0 <;> by_cases h2 : q2.num < 0
  · rw [if_pos h1, if_pos h2] at hd
    simp only [List.cons_append, List.nil_append, List.append_assoc,
      List.singleton_append, List.cons.injEq] at hd
    obtain ⟨ha, hb⟩ := sep_split_left _ _ hslashfree1 hslashfree2 hd.2
    have hnum : q1.num.natAbs = q2.num.natAbs := fmtNat_inj (strData_ext ha)
    have hden : q1.den = q2.den := fmtNat_inj (strData_ext hb)
    have : q1.num = q2.num := by omega
    exact Rat.ext this hden
  · rw [if_pos h1, if_neg h2] at hd
    simp only [List.cons_append, List.nil_append, List.append_assoc,
      List.singleton_append] at hd
    cases hA : (fmtNat q2.num.natAbs).data with
    | nil => exact absurd hA (fmtNat_ne_nil _)
    | cons c t =>
      rw [hA, List.cons_append] at hd
      have hc : c = '-' := (List.cons.injEq _ _ _ _ ▸ hd).1.symm
      have : c ∈ (fmtNat q2.num.natAbs).data := by rw [hA]; exact List.mem_cons_self c t
      exact absurd hc (digit_chars_ne c (fmtNat_mem _ c this)).2.1
  · rw [if_neg h1, if_pos h2] at hd
    simp only [List.cons_append, List.nil_append, List.append_assoc,
      List.singleton_append] at hd
    cases hA : (fmtNat q1.num.natAbs).data with
    | nil => exact absurd hA (fmtNat_ne_nil _)
    | cons c t =>
      rw [hA, List.cons_append] at hd
      have hc : c = '-' := (List.cons.injEq _ _ _ _ ▸ hd).1
      have : c ∈ (fmtNat q1.num.natAbs).data := by rw [hA]; exact List.mem_cons_self c t
      exact absurd hc (digit_chars_ne c (fmtNat_mem _ c this)).2.1
  · rw [if_neg h1, if_neg h2] at hd
    simp only [List.nil_append] at hd
    obtain ⟨ha, hb⟩ := sep_split_left _ _ hslashfree1 hslashfree2 hd
    have hnum : q1.num.natAbs = q2.num.natAbs := fmtNat_inj (strData_ext ha)
    have hden : q1.den = q2.den := fmtNat_inj (strData_ext hb)
    have : q1.num = q2.num := by omega
    exact Rat.ext this hden

theorem fingerprint_data (op : String) (x y : ℚ) : (fingerprint op x y).data =
    (op.data ++ ';' :: (fmtRat x).data) ++ ';' :: (fmtRat y).data := by
  have hsemi : (";" : String).data = [';'] := rfl
  simp [fingerprint, String.data_append, hsemi, List.append_assoc]

theorem fingerprint_inj {op1 op2 : String} {x1 y1 x2 y2 : ℚ}
    (h : fingerprint op1 x1 y1 = fingerprint op2 x2 y2) :
    op1 = op2 ∧ x1 = x2 ∧ y1 = y2 := by
  have hd := congrArg String.data h
  rw [fingerprint_data, fingerprint_data] at hd
  obtain ⟨h1, hy⟩ := sep_split_right _ _ (fmtRat_no_semi y1) (fmtRat_no_semi y2) hd
  obtain ⟨hop, hx⟩ := sep_split_right _ _ (fmtRat_no_semi x1) (fmtRat_no_semi x2) h1
  exact ⟨strData_ext hop, fmtRat_inj (strData_ext hx), fmtRat_inj (strData_ext hy)⟩

/-! ### Shape lemmas for the three cache operations -/

theorem alookup_aerase_some {α β : Type} [DecidableEq α] {m : List (α × β)} {k k' : α}
    {v : β} (h : alookup (aerase m k) k' = some v) :
    alookup m k' = some v ∧ k' ≠ k := by
  rw [alookup_aerase] at h
  by_cases hk : k' = k
  · rw [if_pos hk] at h; cases h
  · rw [if_neg hk] at h; exact ⟨h, hk⟩

theorem get_miss {c : cacheStruct} {k : String} (now : Nat)
    (h : alookup c.hash k = none) : c.get k now = (0, false, c) := by
  simp [cacheStruct.get, h]

theorem get_hit {c : cacheStruct} {k : String} {p : Nat} {en : cacheEntry} {e : Nat}
    (now : Nat) (hp : alookup c.hash k = some p) (hen : alookup c.heap p = some en)
    (hel : en.element = some e) :
    c.get k now = (en.answer, true,
      { c with heap := ainsert c.heap p { en with time := now },
               listOrder := moveToBack c.listOrder e }) := by
  simp [cacheStruct.get, hp, hen, hel]

theorem get_hash (c : cacheStruct) (k : String) (now : Nat) :
    (c.get k now).2.2.hash = c.hash := by
  cases h1 : alookup c.hash k with
  | none => simp [cacheStruct.get, h1]
  | some p =>
    cases h2 : alookup c.heap p with
    | none => simp [cacheStruct.get, h1, h2]
    | some item =>
      cases h3 : item.element with
      | none => simp [cacheStruct.get, h1, h2, h3]
      | some e => simp [cacheStruct.get, h1, h2, h3]

theorem get_listElems (c : cacheStruct) (k : String) (now : Nat) :
    (c.get k now).2.2.listElems = c.listElems := by
  cases h1 : alookup c.hash k with
  | none => simp [cacheStruct.get, h1]
  | some p =>
    cases h2 : alookup c.heap p with
    | none => simp [cacheStruct.get, h1, h2]
    | some item =>
      cases h3 : item.element with
      | none => simp [cacheStruct.get, h1, h2, h3]
      | some e => simp [cacheStruct.get, h1, h2, h3]

theorem get_fresh (c : cacheStruct) (k : String) (now : Nat) :
    (c.get k now).2.2.fresh = c.fresh := by
  cases h1 : alookup c.hash k with
  | none => simp [cacheStruct.get, h1]
  | some p =>
    cases h2 : alookup c.heap p with
    | none => simp [cacheStruct.get, h1, h2]
    | some item =>
      cases h3 : item.element with
      | none => simp [cacheStruct.get, h1, h2, h3]
      | some e => simp [cacheStruct.get, h1, h2, h3]

theorem set_heap (c : cacheStruct) (k : String) (v : ℚ) (now : Nat) :
    (c.set k v now).heap =
      ainsert c.heap c.fresh
        { key := k, answer := v, time := now, element := some (c.fresh + 1) } := rfl

theorem set_hash (c : cacheStruct) (k : String) (v : ℚ) (now : Nat) :
    (c.set k v now).hash = ainsert c.hash k c.fresh := rfl

theorem set_listElems (c : cacheStruct) (k : String) (v : ℚ) (now : Nat) :
    (c.set k v now).listElems = ainsert c.listElems (c.fresh + 1) c.fresh := rfl

theorem set_listOrder (c : cacheStruct) (k : String) (v : ℚ) (now : Nat) :
    (c.set k v now).listOrder = c.listOrder ++ [c.fresh + 1] := rfl

theorem set_fresh (c : cacheStruct) (k : String) (v : ℚ) (now : Nat) :
    (c.set k v now).fresh = c.fresh + 2 := rfl

theorem cleanupLoop_heap (now : Nat) : ∀ (l : List Nat) (c : cacheStruct),
    (cleanupLoop now c l).heap = c.heap := by
  intro l
  induction l with
  | nil => intro c; rfl
  | cons e rest ih =>
    intro c
    cases h1 : alookup c.listElems e with
    | none => simp [cleanupLoop, h1]
    | some p =>
      cases h2 : alookup c.heap p with
      | none => simp [cleanupLoop, h1, h2]
      | some v =>
        by_cases h3 : v.time + cacheExpireSeconds < now
        · simp only [cleanupLoop, h1, h2, if_pos h3]
          rw [ih]
        · simp [cleanupLoop, h1, h2, h3]

theorem cleanupLoop_fresh (now : Nat) : ∀ (l : List Nat) (c : cacheStruct),
    (cleanupLoop now c l).fresh = c.fresh := by
  intro l
  induction l with
  | nil => intro c; rfl
  | cons e rest ih =>
    intro c
    cases h1 : alookup c.listElems e with
    | none => simp [cleanupLoop, h1]
    | some p =>
      cases h2 : alookup c.heap p with
      | none => simp [cleanupLoop, h1, h2]
      | some v =>
        by_cases h3 : v.time + cacheExpireSeconds < now
        · simp only [cleanupLoop, h1, h2, if_pos h3]
          rw [ih]
        · simp [cleanupLoop, h1, h2, h3]

theorem cleanupLoop_hash_some (now : Nat) : ∀ (l : List Nat) (c : cacheStruct)
    (k : String) (p : Nat), alookup (cleanupLoop now c l).hash k = some p →
    alookup c.hash k = some p := by
  intro l
  induction l with
  | nil => intro c k p h; exact h
  | cons e rest ih =>
    intro c k p h
    cases h1 : alookup c.listElems e with
    | none => simp only [cleanupLoop, h1] at h; exact h
    | some p0 =>
      cases h2 : alookup c.heap p0 with
      | none => simp only [cleanupLoop, h1, h2] at h; exact h
      | some v =>
        by_cases h3 : v.time + cacheExpireSeconds < now
        · simp only [cleanupLoop, h1, h2, if_pos h3] at h
          exact (alookup_aerase_some (ih _ k p h)).1
        · simp only [cleanupLoop, h1, h2, if_neg h3] at h
          exact h

theorem cleanupLoop_listElems_some (now : Nat) : ∀ (l : List Nat) (c : cacheStruct)
    (e : Nat) (p : Nat), alookup (cleanupLoop now c l).listElems e = some p →
    alookup c.listElems e = some p := by
  intro l
  induction l with
  | nil => intro c e p h; exact h
  | cons e0 rest ih =>
    intro c e p h
    cases h1 : alookup c.listElems e0 with
    | none => simp only [cleanupLoop, h1] at h; exact h
    | some p0 =>
      cases h2 : alookup c.heap p0 with
      | none => simp only [cleanupLoop, h1, h2] at h; exact h
      | some v =>
        by_cases h3 : v.time + cacheExpireSeconds < now
        · simp only [cleanupLoop, h1, h2, if_pos h3] at h
          exact (alookup_aerase_some (ih _ e p h)).1
        · simp only [cleanupLoop, h1, h2, if_neg h3] at h
          exact h

theorem cleanupLoop_listOrder_sublist (now : Nat) : ∀ (l : List Nat) (c : cacheStruct),
    List.Sublist (cleanupLoop now c l).listOrder c.listOrder := by
  intro l
  induction l with
  | nil => intro c; exact List.Sublist.refl _
  | cons e rest ih =>
    intro c
    cases h1 : alookup c.listElems e with
    | none => simp only [cleanupLoop, h1]; exact List.Sublist.refl _
    | some p =>
      cases h2 : alookup c.heap p with
      | none => simp only [cleanupLoop, h1, h2]; exact List.Sublist.refl _
      | some v =>
        by_cases h3 : v.time + cacheExpireSeconds < now
        · simp only [cleanupLoop, h1, h2, if_pos h3]
          exact (ih _).trans (List.erase_sublist e c.listOrder)
        · simp only [cleanupLoop, h1, h2, if_neg h3]
          exact List.Sublist.refl _

/-! ### Well-formedness preservation -/

theorem wfRaw_newCache : wfRaw newCache := by
  refine ⟨?_, ?_, ?_, ?_, ?_, ?_, ?_⟩ <;> simp [newCache, alookup]

theorem wfRaw_set {c : cacheStruct} (h : wfRaw c) (k : String) (v : ℚ) (now : Nat) :
    wfRaw (c.set k v now) := by
  obtain ⟨hnodup, helemOk, hhashOk, horder, helems, hheap, hhash⟩ := h
  constructor
  · rw [set_listOrder, List.nodup_append]
    refine ⟨hnodup, List.nodup_singleton _, ?_⟩
    intro a ha hb
    simp only [List.mem_singleton] at hb
    subst hb
    exact absurd (horder _ ha) (by omega)
  · intro e he
    rw [set_listOrder, List.mem_append, List.mem_singleton] at he
    rcases he with he | he
    · obtain ⟨p, en, h1, h2, h3⟩ := helemOk e he
      have hep := helems e p h1
      refine ⟨p, en, ?_, ?_, h3⟩
      · rw [set_listElems, alookup_ainsert_ne _ _ _ (by omega)]
        exact h1
      · rw [set_heap, alookup_ainsert_ne _ _ _ (by omega)]
        exact h2
    · subst he
      refine ⟨c.fresh, { key := k, answer := v, time := now, element := some (c.fresh + 1) },
        ?_, ?_, rfl⟩
      · rw [set_listElems, alookup_ainsert_self]
      · rw [set_heap, alookup_ainsert_self]
  · intro k' p hp
    rw [set_hash, alookup_ainsert] at hp
    by_cases hk : k' = k
    · rw [if_pos hk] at hp
      cases hp
      refine ⟨{ key := k, answer := v, time := now, element := some (c.fresh + 1) },
        c.fresh + 1, ?_, hk.symm ▸ rfl, rfl, ?_, ?_⟩
      · rw [set_heap, alookup_ainsert_self]
      · rw [set_listOrder]
        simp
      · rw [set_listElems, alookup_ainsert_self]
    · rw [if_neg hk] at hp
      obtain ⟨en, e, h1, h2, h3, h4, h5⟩ := hhashOk k' p hp
      have hpb := hhash k' p hp
      have heb := helems e p h5
      refine ⟨en, e, ?_, h2, h3, ?_, ?_⟩
      · rw [set_heap, alookup_ainsert_ne _ _ _ (by omega)]
        exact h1
      · rw [set_listOrder, List.mem_append]
        exact Or.inl h4
      · rw [set_listElems, alookup_ainsert_ne _ _ _ (by omega)]
        exact h5
  · intro e he
    rw [set_listOrder, List.mem_append, List.mem_singleton] at he
    rw [set_fresh]
    rcases he with he | he
    · have := horder e he; omega
    · omega
  · intro e p hep
    rw [set_listElems, alookup_ainsert] at hep
    rw [set_fresh]
    by_cases he : e = c.fresh + 1
    · rw [if_pos he] at hep
      cases hep
      omega
    · rw [if_neg he] at hep
      have := helems e p hep
      omega
  · intro p en hp
    rw [set_heap, alookup_ainsert] at hp
    rw [set_fresh]
    by_cases hq : p = c.fresh
    · omega
    · rw [if_neg hq] at hp
      have := hheap p en hp
      omega
  · intro k' p hp
    rw [set_hash, alookup_ainsert] at hp
    rw [set_fresh]
    by_cases hk : k' = k
    · rw [if_pos hk] at hp
      cases hp
      omega
    · rw [if_neg hk] at hp
      have := hhash k' p hp
      omega

theorem wf_key_of_ptr {c : cacheStruct} (h : wfRaw c) {k1 k2 : String} {p : Nat}
    (h1 : alookup c.hash k1 = some p) (h2 : alookup c.hash k2 = some p) : k1 = k2 := by
  obtain ⟨en1, e1, he1, hk1, _, _, _⟩ := h.hashOk k1 p h1
  obtain ⟨en2, e2, he2, hk2, _, _, _⟩ := h.hashOk k2 p h2
  have : en1 = en2 := Option.some.inj (he1.symm.trans he2)
  subst this
  rw [← hk1, ← hk2]

theorem wf_elem_of_ptr {c : cacheStruct} (h : wfRaw c) {e1 e2 p : Nat}
    (hm1 : e1 ∈ c.listOrder) (hm2 : e2 ∈ c.listOrder)
    (h1 : alookup c.listElems e1 = some p) (h2 : alookup c.listElems e2 = some p) :
    e1 = e2 := by
  obtain ⟨p1, en1, hp1, hh1, hel1⟩ := h.elemOk e1 hm1
  obtain ⟨p2, en2, hp2, hh2, hel2⟩ := h.elemOk e2 hm2
  have hpp1 : p1 = p := Option.some.inj (hp1.symm.trans h1)
  have hpp2 : p2 = p := Option.some.inj (hp2.symm.trans h2)
  subst hpp1; subst hpp2
  have : en1 = en2 := Option.some.inj (hh1.symm.trans hh2)
  subst this
  exact Option.some.inj (hel1.symm.trans hel2)

theorem wfRaw_get_hit {c : cacheStruct} (h : wfRaw c) (now : Nat) {k : String}
    {p e : Nat} {en : cacheEntry}
    (hp : alookup c.hash k = some p) (hen : alookup c.heap p = some en)
    (hel : en.element = some e) :
    wfRaw { c with heap := ainsert c.heap p { en with time := now },
                   listOrder := moveToBack c.listOrder e } := by
  obtain ⟨en0, e0, hen0, hkey0, hel0, hmem0, hle0⟩ := h.hashOk k p hp
  have hee : en0 = en := Option.some.inj (hen0.symm.trans hen)
  have hkey : en.key = k := hee ▸ hkey0
  have he0e : e0 = e := Option.some.inj ((hee ▸ hel0 : en.element = some e0).symm.trans hel)
  have hmem0 : e ∈ c.listOrder := he0e ▸ hmem0
  have hle0 : alookup c.listElems e = some p := he0e ▸ hle0
  have hmtb : moveToBack c.listOrder e = c.listOrder.erase e ++ [e] := by
    rw [moveToBack, if_pos hmem0]
  obtain ⟨hnodup, helemOk, hhashOk, horder, helems, hheap, hhash⟩ := h
  constructor
  · show (moveToBack c.listOrder e).Nodup
    rw [hmtb, List.nodup_append]
    refine ⟨hnodup.erase e, List.nodup_singleton _, ?_⟩
    intro a ha hb
    simp only [List.mem_singleton] at hb
    subst hb
    exact ((hnodup.mem_erase_iff).mp ha).1 rfl
  · intro e' he'
    simp only [hmtb, List.mem_append, List.mem_singleton] at he'
    rcases he' with he' | he'
    · obtain ⟨hne, hmem⟩ := (hnodup.mem_erase_iff).mp he'
      obtain ⟨p', en2, hp', hh2, hel2⟩ := helemOk e' hmem
      have hppne : p' ≠ p := by
        intro hpp
        subst hpp
        exact hne (wf_elem_of_ptr ⟨hnodup, helemOk, hhashOk, horder, helems, hheap, hhash⟩
          hmem hmem0 hp' hle0)
      refine ⟨p', en2, hp', ?_, hel2⟩
      show alookup (ainsert c.heap p { en with time := now }) p' = some en2
      rw [alookup_ainsert_ne _ _ _ hppne]
      exact hh2
    · subst he'
      refine ⟨p, { en with time := now }, hle0, ?_, hel⟩
      show alookup (ainsert c.heap p { en with time := now }) p = some _
      rw [alookup_ainsert_self]
  · intro k' p' hp'
    have hp'c : alookup c.hash k' = some p' := hp'
    by_cases hpp : p' = p
    · subst hpp
      have hkk : k' = k := wf_key_of_ptr ⟨hnodup, helemOk, hhashOk, horder, helems, hheap, hhash⟩
        hp'c hp
      subst hkk
      refine ⟨{ en with time := now }, e, ?_, ?_, hel, ?_, hle0⟩
      · show alookup (ainsert c.heap p' { en with time := now }) p' = some _
        rw [alookup_ainsert_self]
      · show en.key = k'
        exact hkey
      · show e ∈ moveToBack c.listOrder e
        rw [hmtb]
        simp
    · obtain ⟨en2, e2, hh2, hk2, hel2, hm2, hle2⟩ := hhashOk k' p' hp'c
      refine ⟨en2, e2, ?_, hk2, hel2, ?_, hle2⟩
      · show alookup (ainsert c.heap p { en with time := now }) p' = some en2
        rw [alookup_ainsert_ne _ _ _ hpp]
        exact hh2
      · show e2 ∈ moveToBack c.listOrder e
        rw [hmtb, List.mem_append, List.mem_singleton]
        by_cases he2 : e2 = e
        · exact Or.inr he2
        · exact Or.inl ((hnodup.mem_erase_iff).mpr ⟨he2, hm2⟩)
  · intro e' he'
    simp only [hmtb, List.mem_append, List.mem_singleton] at he'
    rcases he' with he' | he'
    · exact horder e' (List.mem_of_mem_erase he')
    · subst he'; exact horder e' hmem0
  · intro e' p' h'
    exact helems e' p' h'
  · intro p' en' h'
    by_cases hpp : p' = p
    · subst hpp
      exact hhash k p' hp
    · have : alookup (ainsert c.heap p { en with time := now }) p' = some en' := h'
      rw [alookup_ainsert_ne _ _ _ hpp] at this
      exact hheap p' en' this
  · intro k' p' h'
    exact hhash k' p' h'

theorem wfRaw_get {c : cacheStruct} (h : wfRaw c) (k : String) (now : Nat) :
    wfRaw (c.get k now).2.2 := by
  cases hp : alookup c.hash k with
  | none => rw [get_miss now hp]; exact h
  | some p =>
    obtain ⟨en, e, hen, hkey, hel, hmem, hle⟩ := h.hashOk k p hp
    rw [get_hit now hp hen hel]
    exact wfRaw_get_hit h now hp hen hel

theorem wfRaw_cleanup_step {c : cacheStruct} (h : wfRaw c) {e0 p0 : Nat}
    {en0 : cacheEntry}
    (h1 : alookup c.listElems e0 = some p0) (h2 : alookup c.heap p0 = some en0) :
    wfRaw { c with listOrder := c.listOrder.erase e0,
                   listElems := aerase c.listElems e0,
                   hash := aerase c.hash en0.key } := by
  obtain ⟨hnodup, helemOk, hhashOk, horder, helems, hheap, hhash⟩ := h
  constructor
  · exact hnodup.erase e0
  · intro e he
    have hne : e ≠ e0 := ((hnodup.mem_erase_iff).mp he).1
    have hmem : e ∈ c.listOrder := ((hnodup.mem_erase_iff).mp he).2
    obtain ⟨p, en, hp, hh, hel⟩ := helemOk e hmem
    refine ⟨p, en, ?_, hh, hel⟩
    show alookup (aerase c.listElems e0) e = some p
    rw [alookup_aerase, if_neg hne]
    exact hp
  · intro k p hp
    obtain ⟨hpc, hkne⟩ := alookup_aerase_some hp
    obtain ⟨en, e, hh, hk, hel, hm, hle⟩ := hhashOk k p hpc
    have hne : e ≠ e0 := by
      intro hh'
      subst hh'
      have hpp : p = p0 := Option.some.inj (hle.symm.trans h1)
      subst hpp
      have : en = en0 := Option.some.inj (hh.symm.trans h2)
      subst this
      exact hkne hk.symm
    refine ⟨en, e, hh, hk, hel, (hnodup.mem_erase_iff).mpr ⟨hne, hm⟩, ?_⟩
    show alookup (aerase c.listElems e0) e = some p
    rw [alookup_aerase, if_neg hne]
    exact hle
  · intro e he
    exact horder e (List.mem_of_mem_erase he)
  · intro e p hep
    exact helems e p (alookup_aerase_some hep).1
  · intro p en hp
    exact hheap p en hp
  · intro k p hp
    exact hhash k p (alookup_aerase_some hp).1

theorem wfRaw_cleanupLoop (now : Nat) : ∀ (l : List Nat) (c : cacheStruct),
    wfRaw c → wfRaw (cleanupLoop now c l) := by
  intro l
  induction l with
  | nil => intro c h; exact h
  | cons e rest ih =>
    intro c h
    cases h1 : alookup c.listElems e with
    | none => simp only [cleanupLoop, h1]; exact h
    | some p =>
      cases h2 : alookup c.heap p with
      | none => simp only [cleanupLoop, h1, h2]; exact h
      | some v =>
        by_cases h3 : v.time + cacheExpireSeconds < now
        · simp only [cleanupLoop, h1, h2, if_pos h3]
          exact ih _ (wfRaw_cleanup_step h h1 h2)
        · simp only [cleanupLoop, h1, h2, if_neg h3]
          exact h

theorem wfRaw_cleanup {c : cacheStruct} (h : wfRaw c) (now : Nat) :
    wfRaw (c.cleanup now) :=
  wfRaw_cleanupLoop now c.listOrder c h

theorem wfRaw_applyRaw {c : cacheStruct} (h : wfRaw c) (op : rawOp) (t : Nat) :
    wfRaw (applyRaw c (op, t)) := by
  cases op with
  | opGet k => exact wfRaw_get h k t
  | opSet k v => exact wfRaw_set h k v t
  | opCleanup => exact wfRaw_cleanup h t

/-! ### Entry-list computations for each operation -/

theorem elemEntry_set (h : wfRaw c) (k : String) (v : ℚ) (now : Nat) :
    ∀ e ∈ c.listOrder, elemEntry (c.set k v now) e = elemEntry c e := by
  intro e he
  have heb : e < c.fresh := h.orderBound e he
  cases hl : alookup c.listElems e with
  | none =>
    simp [elemEntry, set_listElems, hl,
      alookup_ainsert_ne _ _ _ (show e ≠ c.fresh + 1 by omega)]
  | some p =>
    have hpb : p < c.fresh := (h.elemsBound e p hl).2
    simp [elemEntry, set_listElems, set_heap, hl,
      alookup_ainsert_ne _ _ _ (show e ≠ c.fresh + 1 by omega),
      alookup_ainsert_ne _ _ _ (show p ≠ c.fresh by omega)]

theorem entriesOf_set (h : wfRaw c) (k : String) (v : ℚ) (now : Nat) :
    entriesOf (c.set k v now) = entriesOf c ++
      [{ key := k, answer := v, time := now, element := some (c.fresh + 1) }] := by
  show (c.set k v now).listOrder.filterMap (elemEntry (c.set k v now)) = _
  rw [set_listOrder, List.filterMap_append]
  congr 1
  · rw [List.filterMap_congr (elemEntry_set h k v now)]
    rfl
  · show List.filterMap _ [c.fresh + 1] = _
    have : elemEntry (c.set k v now) (c.fresh + 1) =
        some { key := k, answer := v, time := now, element := some (c.fresh + 1) } := by
      show (alookup (c.set k v now).listElems (c.fresh + 1)).bind (alookup (c.set k v now).heap)
        = _
      rw [set_listElems, set_heap, alookup_ainsert_self]
      show alookup (ainsert c.heap c.fresh _) c.fresh = _
      rw [alookup_ainsert_self]
    simp [this]

theorem elemEntry_get_hit (h : wfRaw c) (now : Nat) {k : String} {p e : Nat}
    {en : cacheEntry}
    (hp : alookup c.hash k = some p) (hen : alookup c.heap p = some en)
    (hel : en.element = some e) :
    ∀ e' ∈ c.listOrder, e' ≠ e →
      elemEntry { c with heap := ainsert c.heap p { en with time := now },
                         listOrder := moveToBack c.listOrder e } e' = elemEntry c e' := by
  intro e' he' hne
  obtain ⟨en0, e0, hen0, hkey0, hel0, hmem0, hle0⟩ := h.hashOk k p hp
  have hee : en0 = en := Option.some.inj (hen0.symm.trans hen)
  have he0e : e0 = e := Option.some.inj ((hee ▸ hel0 : en.element = some e0).symm.trans hel)
  have hle : alookup c.listElems e = some p := he0e ▸ hle0
  have hmem : e ∈ c.listOrder := he0e ▸ hmem0
  show (alookup c.listElems e').bind (alookup (ainsert c.heap p { en with time := now })) =
    (alookup c.listElems e').bind (alookup c.heap)
  cases hl : alookup c.listElems e' with
  | none => rfl
  | some p' =>
    have hppne : p' ≠ p := by
      intro hpp
      subst hpp
      exact hne (wf_elem_of_ptr h he' hmem hl hle)
    show alookup (ainsert c.heap p { en with time := now }) p' = alookup c.heap p'
    rw [alookup_ainsert_ne _ _ _ hppne]

theorem entriesOf_get_hit (h : wfRaw c) (now : Nat) {k : String} {p e : Nat}
    {en : cacheEntry}
    (hp : alookup c.hash k = some p) (hen : alookup c.heap p = some en)
    (hel : en.element = some e) :
    entriesOf { c with heap := ainsert c.heap p { en with time := now },
                       listOrder := moveToBack c.listOrder e } =
      (c.listOrder.erase e).filterMap (elemEntry c) ++ [{ en with time := now }] := by
  obtain ⟨en0, e0, hen0, hkey0, hel0, hmem0, hle0⟩ := h.hashOk k p hp
  have hee : en0 = en := Option.some.inj (hen0.symm.trans hen)
  have he0e : e0 = e := Option.some.inj ((hee ▸ hel0 : en.element = some e0).symm.trans hel)
  have hle : alookup c.listElems e = some p := he0e ▸ hle0
  have hmem : e ∈ c.listOrder := he0e ▸ hmem0
  have hmtb : moveToBack c.listOrder e = c.listOrder.erase e ++ [e] := by
    rw [moveToBack, if_pos hmem]
  show (moveToBack c.listOrder e).filterMap
    (elemEntry { c with heap := ainsert c.heap p { en with time := now },
                        listOrder := moveToBack c.listOrder e }) = _
  rw [hmtb, List.filterMap_append]
  congr 1
  · apply List.filterMap_congr
    intro a ha
    exact elemEntry_get_hit h now hp hen hel a (List.mem_of_mem_erase ha)
      ((h.nodup.mem_erase_iff).mp ha).1
  · have : elemEntry { c with
        heap := ainsert c.heap p { en with time := now },
        listOrder := moveToBack c.listOrder e } e = some { en with time := now } := by
      show (alookup c.listElems e).bind (alookup (ainsert c.heap p { en with time := now })) = _
      rw [hle]
      show alookup (ainsert c.heap p { en with time := now }) p = _
      rw [alookup_ainsert_self]
    rw [hmtb] at this
    simp only [List.filterMap_cons, this, List.filterMap_nil]

theorem elemEntry_cleanup_step {c : cacheStruct} (h : wfRaw c) {e0 p0 : Nat}
    {en0 : cacheEntry}
    (h1 : alookup c.listElems e0 = some p0) (h2 : alookup c.heap p0 = some en0) :
    ∀ e ∈ c.listOrder, e ≠ e0 →
      elemEntry { c with listOrder := c.listOrder.erase e0,
                         listElems := aerase c.listElems e0,
                         hash := aerase c.hash en0.key } e = elemEntry c e := by
  intro e _ hne
  show (alookup (aerase c.listElems e0) e).bind (alookup c.heap) =
    (alookup c.listElems e).bind (alookup c.heap)
  rw [alookup_aerase, if_neg hne]

theorem entriesOf_cleanup_step {c : cacheStruct} (h : wfRaw c) {e0 p0 : Nat}
    {en0 : cacheEntry}
    (h1 : alookup c.listElems e0 = some p0) (h2 : alookup c.heap p0 = some en0) :
    entriesOf { c with listOrder := c.listOrder.erase e0,
                       listElems := aerase c.listElems e0,
                       hash := aerase c.hash en0.key } =
      (c.listOrder.erase e0).filterMap (elemEntry c) := by
  show (c.listOrder.erase e0).filterMap _ = _
  apply List.filterMap_congr
  intro a ha
  exact elemEntry_cleanup_step h h1 h2 a (List.mem_of_mem_erase ha)
    ((h.nodup.mem_erase_iff).mp ha).1

/-! ### Sortedness and clock-bound preservation -/

theorem invRaw_newCache (t : Nat) : invRaw newCache t := by
  refine ⟨wfRaw_newCache, ?_, ?_⟩
  · show List.Pairwise _ (listTimes newCache)
    simp [listTimes, entriesOf, newCache]
  · intro en hen
    simp [entriesOf, newCache] at hen

theorem invRaw_mono {c : cacheStruct} {t t' : Nat} (h : invRaw c t) (hle : t ≤ t') :
    invRaw c t' :=
  ⟨h.wf, h.sorted, fun en hen => le_trans (h.timesLe en hen) hle⟩

theorem invRaw_set {c : cacheStruct} {t : Nat} (h : invRaw c t) {t' : Nat}
    (hle : t ≤ t') (k : String) (v : ℚ) : invRaw (c.set k v t') t' := by
  refine ⟨wfRaw_set h.wf k v t', ?_, ?_⟩
  · show List.Pairwise _ (listTimes (c.set k v t'))
    simp only [listTimes, entriesOf_set h.wf k v t', List.map_append]
    rw [List.pairwise_append]
    refine ⟨h.sorted, List.pairwise_singleton _ _, ?_⟩
    intro a ha b hb
    simp only [List.map_cons, List.map_nil, List.mem_singleton] at hb
    subst hb
    obtain ⟨en2, hen2, ha2⟩ := List.mem_map.mp ha
    subst ha2
    exact le_trans (h.timesLe en2 hen2) hle
  · intro en hen
    rw [entriesOf_set h.wf k v t', List.mem_append] at hen
    rcases hen with hen | hen
    · exact le_trans (h.timesLe en hen) hle
    · simp only [List.mem_singleton] at hen
      subst hen
      exact le_rfl

theorem invRaw_get {c : cacheStruct} {t : Nat} (h : invRaw c t) {t' : Nat}
    (hle : t ≤ t') (k : String) : invRaw ((c.get k t').2.2) t' := by
  cases hp : alookup c.hash k with
  | none =>
    rw [get_miss t' hp]
    exact invRaw_mono h hle
  | some p =>
    obtain ⟨en, e, hen, hkey, hel, hmem, hlem⟩ := h.wf.hashOk k p hp
    rw [get_hit t' hp hen hel]
    have hsub : List.Sublist ((c.listOrder.erase e).filterMap (elemEntry c)) (entriesOf c) :=
      (List.erase_sublist e c.listOrder).filterMap _
    refine ⟨wfRaw_get_hit h.wf t' hp hen hel, ?_, ?_⟩
    · show List.Pairwise _ (listTimes _)
      simp only [listTimes, entriesOf_get_hit h.wf t' hp hen hel, List.map_append]
      rw [List.pairwise_append]
      refine ⟨h.sorted.sublist (hsub.map _), List.pairwise_singleton _ _, ?_⟩
      intro a ha b hb
      simp only [List.map_cons, List.map_nil, List.mem_singleton] at hb
      subst hb
      obtain ⟨en2, hen2, ha2⟩ := List.mem_map.mp ha
      subst ha2
      exact le_trans (h.timesLe en2 (hsub.subset hen2)) hle
    · intro en2 hen2
      rw [entriesOf_get_hit h.wf t' hp hen hel, List.mem_append] at hen2
      rcases hen2 with hen2 | hen2
      · exact le_trans (h.timesLe en2 (hsub.subset hen2)) hle
      · simp only [List.mem_singleton] at hen2
        subst hen2
        exact le_rfl

theorem invRaw_cleanupLoop (now : Nat) : ∀ (l : List Nat) (c : cacheStruct) (t : Nat),
    invRaw c t → invRaw (cleanupLoop now c l) t := by
  intro l
  induction l with
  | nil => intro c t h; exact h
  | cons e rest ih =>
    intro c t h
    cases h1 : alookup c.listElems e with
    | none => simp only [cleanupLoop, h1]; exact h
    | some p =>
      cases h2 : alookup c.heap p with
      | none => simp only [cleanupLoop, h1, h2]; exact h
      | some v =>
        by_cases h3 : v.time + cacheExpireSeconds < now
        · simp only [cleanupLoop, h1, h2, if_pos h3]
          apply ih
          have hsub : List.Sublist ((c.listOrder.erase e).filterMap (elemEntry c))
              (entriesOf c) := (List.erase_sublist e c.listOrder).filterMap _
          refine ⟨wfRaw_cleanup_step h.wf h1 h2, ?_, ?_⟩
          · show List.Pairwise _ (listTimes _)
            simp only [listTimes, entriesOf_cleanup_step h.wf h1 h2]
            exact h.sorted.sublist (hsub.map _)
          · intro en hen
            rw [entriesOf_cleanup_step h.wf h1 h2] at hen
            exact h.timesLe en (hsub.subset hen)
        · simp only [cleanupLoop, h1, h2, if_neg h3]
          exact h

theorem invRaw_cleanup {c : cacheStruct} {t : Nat} (h : invRaw c t) (now : Nat) :
    invRaw (c.cleanup now) t :=
  invRaw_cleanupLoop now c.listOrder c t h

theorem invRaw_applyRaw {c : cacheStruct} {t : Nat} (h : invRaw c t) (op : rawOp)
    {t' : Nat} (hle : t ≤ t') : invRaw (applyRaw c (op, t')) t' := by
  cases op with
  | opGet k => exact invRaw_get h hle k
  | opSet k v => exact invRaw_set h hle k v
  | opCleanup => exact invRaw_cleanup (invRaw_mono h hle) t'

theorem rawReach_invRaw {s : cacheStruct} {t : Nat} (h : rawReach s t) : invRaw s t := by
  induction h with
  | init t => exact invRaw_newCache t
  | step op hreach hle ih => exact invRaw_applyRaw ih op hle

/-! ### Flow-invariant preservation -/

theorem invFlow_newCache (t : Nat) : invFlow newCache t := by
  refine ⟨invRaw_newCache t, ?_, ?_⟩
  · intro e he
    simp [newCache] at he
  · intro k p hp
    simp [newCache, alookup] at hp

theorem invFlow_cleanup_step {c : cacheStruct} {t : Nat} (h : invFlow c t)
    {e0 p0 : Nat} {en0 : cacheEntry} (hmem0 : e0 ∈ c.listOrder)
    (h1 : alookup c.listElems e0 = some p0) (h2 : alookup c.heap p0 = some en0) :
    invFlow { c with listOrder := c.listOrder.erase e0,
                     listElems := aerase c.listElems e0,
                     hash := aerase c.hash en0.key } t := by
  have hsub : List.Sublist ((c.listOrder.erase e0).filterMap (elemEntry c))
      (entriesOf c) := (List.erase_sublist e0 c.listOrder).filterMap _
  refine ⟨⟨wfRaw_cleanup_step h.raw.wf h1 h2, ?_, ?_⟩, ?_, ?_⟩
  · show List.Pairwise _ (listTimes _)
    simp only [listTimes, entriesOf_cleanup_step h.raw.wf h1 h2]
    exact h.raw.sorted.sublist (hsub.map _)
  · intro en hen
    rw [entriesOf_cleanup_step h.raw.wf h1 h2] at hen
    exact h.raw.timesLe en (hsub.subset hen)
  · intro e he p en hlep hhp
    have he2 : e ∈ c.listOrder.erase e0 := he
    have hne : e ≠ e0 := ((h.raw.wf.nodup.mem_erase_iff).mp he2).1
    have hmem : e ∈ c.listOrder := List.mem_of_mem_erase he2
    have hlep2 : alookup (aerase c.listElems e0) e = some p := hlep
    have hlep' : alookup c.listElems e = some p := by
      rw [alookup_aerase, if_neg hne] at hlep2
      exact hlep2
    have hhp' : alookup c.heap p = some en := hhp
    have hcomp : alookup c.hash en.key = some p := h.complete e hmem p en hlep' hhp'
    have hkeyne : en.key ≠ en0.key := by
      intro hkk
      have hcomp0 : alookup c.hash en0.key = some p0 := h.complete e0 hmem0 p0 en0 h1 h2
      rw [hkk] at hcomp
      have hpp : p = p0 := Option.some.inj (hcomp.symm.trans hcomp0)
      have heq : en = en0 := by
        apply Option.some.inj
        rw [← hhp', ← h2, hpp]
      obtain ⟨pa, ena, hpa, hha, hela⟩ := h.raw.wf.elemOk e hmem
      obtain ⟨pb, enb, hpb, hhb, helb⟩ := h.raw.wf.elemOk e0 hmem0
      have hpa' : pa = p := Option.some.inj (hpa.symm.trans hlep')
      have hpb' : pb = p0 := Option.some.inj (hpb.symm.trans h1)
      have hena : ena = en := by
        apply Option.some.inj
        rw [← hha, ← hhp', hpa']
      have henb : enb = en0 := by
        apply Option.some.inj
        rw [← hhb, ← h2, hpb']
      have : (some e : Option Nat) = some e0 := by
        rw [← hela, ← helb, hena, henb, heq]
      exact hne (Option.some.inj this)
    show alookup (aerase c.hash en0.key) en.key = some p
    rw [alookup_aerase, if_neg hkeyne]
    exact hcomp
  · intro k p hp en hen
    have hp' : alookup c.hash k = some p := (alookup_aerase_some hp).1
    exact h.semantic k p hp' en hen

theorem invFlow_cleanupLoop (now : Nat) : ∀ (l : List Nat) (c : cacheStruct) (t : Nat),
    invFlow c t → c.listOrder = l → invFlow (cleanupLoop now c l) t := by
  intro l
  induction l with
  | nil => intro c t h _; exact h
  | cons e rest ih =>
    intro c t h hl
    cases h1 : alookup c.listElems e with
    | none => simp only [cleanupLoop, h1]; exact h
    | some p =>
      cases h2 : alookup c.heap p with
      | none => simp only [cleanupLoop, h1, h2]; exact h
      | some v =>
        by_cases h3 : v.time + cacheExpireSeconds < now
        · simp only [cleanupLoop, h1, h2, if_pos h3]
          have hmem : e ∈ c.listOrder := by rw [hl]; exact List.mem_cons_self e rest
          apply ih
          · exact invFlow_cleanup_step h hmem h1 h2
          · show c.listOrder.erase e = rest
            rw [hl, List.erase_cons_head]
        · simp only [cleanupLoop, h1, h2, if_neg h3]
          exact h

theorem invFlow_cleanup {c : cacheStruct} {t : Nat} (h : invFlow c t) (now : Nat) :
    invFlow (c.cleanup now) t :=
  invFlow_cleanupLoop now c.listOrder c t h rfl

theorem invFlow_get {c : cacheStruct} {t : Nat} (h : invFlow c t) {t' : Nat}
    (hle : t ≤ t') (k : String) : invFlow ((c.get k t').2.2) t' := by
  cases hp : alookup c.hash k with
  | none =>
    rw [get_miss t' hp]
    exact ⟨invRaw_mono h.raw hle, h.complete, h.semantic⟩
  | some p =>
    obtain ⟨en, e, hen, hkey, hel, hmem, hlem⟩ := h.raw.wf.hashOk k p hp
    rw [get_hit t' hp hen hel]
    have hmtb : moveToBack c.listOrder e = c.listOrder.erase e ++ [e] := by
      rw [moveToBack, if_pos hmem]
    refine ⟨?_, ?_, ?_⟩
    · have := invRaw_get h.raw hle k
      rw [get_hit t' hp hen hel] at this
      exact this
    · intro e' he' p' en' hlep' hhp'
      have he2 : e' ∈ moveToBack c.listOrder e := he'
      rw [hmtb, List.mem_append, List.mem_singleton] at he2
      have hlep2 : alookup c.listElems e' = some p' := hlep'
      have hhp2 : alookup (ainsert c.heap p { en with time := t' }) p' = some en' := hhp'
      rcases he2 with he2 | he2
      · have hne : e' ≠ e := ((h.raw.wf.nodup.mem_erase_iff).mp he2).1
        have hmem' : e' ∈ c.listOrder := List.mem_of_mem_erase he2
        have hppne : p' ≠ p := by
          intro hpp
          subst hpp
          exact hne (wf_elem_of_ptr h.raw.wf hmem' hmem hlep2 hlem)
        rw [alookup_ainsert_ne _ _ _ hppne] at hhp2
        exact h.complete e' hmem' p' en' hlep2 hhp2
      · subst he2
        have hpp : p' = p := Option.some.inj (hlep2.symm.trans hlem)
        subst hpp
        rw [alookup_ainsert_self] at hhp2
        have hen' : en' = { en with time := t' } := Option.some.inj hhp2.symm
        subst hen'
        show alookup c.hash en.key = some p'
        rw [hkey]
        exact hp
    · intro k' p' hp' en' hhp'
      have hp2 : alookup c.hash k' = some p' := hp'
      have hhp2 : alookup (ainsert c.heap p { en with time := t' }) p' = some en' := hhp'
      by_cases hpp : p' = p
      · subst hpp
        have hkk : k' = k := wf_key_of_ptr h.raw.wf hp2 hp
        subst hkk
        rw [alookup_ainsert_self] at hhp2
        have hen' : en' = { en with time := t' } := Option.some.inj hhp2.symm
        subst hen'
        obtain ⟨op, x, y, hv, hkf, hans⟩ := h.semantic k' p' hp2 en hen
        exact ⟨op, x, y, hv, hkf, hans⟩
      · rw [alookup_ainsert_ne _ _ _ hpp] at hhp2
        exact h.semantic k' p' hp2 en' hhp2

theorem invFlow_set {c : cacheStruct} {t : Nat} (h : invFlow c t) {t' : Nat}
    (hle : t ≤ t') {k : String} {v : ℚ} (habs : alookup c.hash k = none)
    (hsem : ∃ op x y, validOp op y ∧ k = fingerprint op x y ∧ v = doMathPure op x y) :
    invFlow (c.set k v t') t' := by
  refine ⟨invRaw_set h.raw hle k v, ?_, ?_⟩
  · intro e he p en hlep hhp
    have he2 : e ∈ c.listOrder ++ [c.fresh + 1] := he
    rw [List.mem_append, List.mem_singleton] at he2
    have hlep2 : alookup (ainsert c.listElems (c.fresh + 1) c.fresh) e = some p := hlep
    have hhp2 : alookup (ainsert c.heap c.fresh
      { key := k, answer := v, time := t', element := some (c.fresh + 1) }) p = some en := hhp
    rcases he2 with he2 | he2
    · have heb : e < c.fresh := h.raw.wf.orderBound e he2
      rw [alookup_ainsert_ne _ _ _ (show e ≠ c.fresh + 1 by omega)] at hlep2
      have hpb : p < c.fresh := (h.raw.wf.elemsBound e p hlep2).2
      rw [alookup_ainsert_ne _ _ _ (show p ≠ c.fresh by omega)] at hhp2
      have hcomp : alookup c.hash en.key = some p := h.complete e he2 p en hlep2 hhp2
      have hkne : en.key ≠ k := by
        intro hkk
        rw [hkk, habs] at hcomp
        cases hcomp
      show alookup (ainsert c.hash k c.fresh) en.key = some p
      rw [alookup_ainsert_ne _ _ _ hkne]
      exact hcomp
    · subst he2
      rw [alookup_ainsert_self] at hlep2
      have hpf : p = c.fresh := Option.some.inj hlep2.symm
      subst hpf
      rw [alookup_ainsert_self] at hhp2
      have hen : en = { key := k, answer := v, time := t', element := some (c.fresh + 1) } :=
        Option.some.inj hhp2.symm
      subst hen
      show alookup (ainsert c.hash k c.fresh) k = some c.fresh
      rw [alookup_ainsert_self]
  · intro k' p hp en hhp
    have hp2 : alookup (ainsert c.hash k c.fresh) k' = some p := hp
    have hhp2 : alookup (ainsert c.heap c.fresh
      { key := k, answer := v, time := t', element := some (c.fresh + 1) }) p = some en := hhp
    by_cases hkk : k' = k
    · subst hkk
      rw [alookup_ainsert_self] at hp2
      have hpf : p = c.fresh := Option.some.inj hp2.symm
      subst hpf
      rw [alookup_ainsert_self] at hhp2
      have hen : en = { key := k', answer := v, time := t', element := some (c.fresh + 1) } :=
        Option.some.inj hhp2.symm
      subst hen
      obtain ⟨op, x, y, hv, hkf, hans⟩ := hsem
      exact ⟨op, x, y, hv, hkf, hans⟩
    · rw [alookup_ainsert_ne _ _ _ hkk] at hp2
      have hpb : p < c.fresh := h.raw.wf.hashBound k' p hp2
      rw [alookup_ainsert_ne _ _ _ (show p ≠ c.fresh by omega)] at hhp2
      exact h.semantic k' p hp2 en hhp2

/-! ### Unfolding lemmas for getAnswer -/

theorem getAnswer_found {c0 : cacheStruct} {op : String} {x y : ℚ} {now : Nat}
    (hf : ((c0.cleanup now).get (fingerprint op x y) now).2.1 = true) :
    getAnswer op x y now c0 =
      (Except.ok (((c0.cleanup now).get (fingerprint op x y) now).1, true),
        ((c0.cleanup now).get (fingerprint op x y) now).2.2) := by
  simp only [getAnswer, hf, if_true]

theorem getAnswer_miss_add {c0 : cacheStruct} {op : String} {x y : ℚ} {now : Nat}
    (hop : op = "add")
    (hp : alookup (c0.cleanup now).hash (fingerprint op x y) = none) :
    getAnswer op x y now c0 = (Except.ok (x + y, false),
      (c0.cleanup now).set (fingerprint op x y) (x + y) now) := by
  subst hop
  simp only [getAnswer, get_miss now hp]
  simp

theorem getAnswer_miss_subtract {c0 : cacheStruct} {op : String} {x y : ℚ} {now : Nat}
    (hop : op = "subtract")
    (hp : alookup (c0.cleanup now).hash (fingerprint op x y) = none) :
    getAnswer op x y now c0 = (Except.ok (x - y, false),
      (c0.cleanup now).set (fingerprint op x y) (x - y) now) := by
  subst hop
  simp only [getAnswer, get_miss now hp]
  simp

theorem getAnswer_miss_multiply {c0 : cacheStruct} {op : String} {x y : ℚ} {now : Nat}
    (hop : op = "multiply")
    (hp : alookup (c0.cleanup now).hash (fingerprint op x y) = none) :
    getAnswer op x y now c0 = (Except.ok (x * y, false),
      (c0.cleanup now).set (fingerprint op x y) (x * y) now) := by
  subst hop
  simp only [getAnswer, get_miss now hp]
  simp

theorem getAnswer_miss_divide {c0 : cacheStruct} {op : String} {x y : ℚ} {now : Nat}
    (hop : op = "divide") (hy : y ≠ 0)
    (hp : alookup (c0.cleanup now).hash (fingerprint op x y) = none) :
    getAnswer op x y now c0 = (Except.ok (x / y, false),
      (c0.cleanup now).set (fingerprint op x y) (x / y) now) := by
  subst hop
  simp only [getAnswer, get_miss now hp]
  simp [hy]

theorem getAnswer_miss_div_zero {c0 : cacheStruct} {op : String} {x y : ℚ} {now : Nat}
    (hop : op = "divide") (hy : y = 0)
    (hp : alookup (c0.cleanup now).hash (fingerprint op x y) = none) :
    getAnswer op x y now c0 =
      (Except.error "Cannot divide by zero", c0.cleanup now) := by
  subst hop
  subst hy
  simp only [getAnswer, get_miss now hp]
  simp

theorem getAnswer_miss_invalid {c0 : cacheStruct} {op : String} {x y : ℚ} {now : Nat}
    (h1 : op ≠ "add") (h2 : op ≠ "subtract") (h3 : op ≠ "multiply") (h4 : op ≠ "divide")
    (hp : alookup (c0.cleanup now).hash (fingerprint op x y) = none) :
    getAnswer op x y now c0 =
      (Except.error ("Invalid operation: " ++ op), c0.cleanup now) := by
  simp only [getAnswer, get_miss now hp]
  simp [h1, h2, h3, h4]

theorem invFlow_mono {c : cacheStruct} {t t' : Nat} (h : invFlow c t) (hle : t ≤ t') :
    invFlow c t' :=
  ⟨invRaw_mono h.raw hle, h.complete, h.semantic⟩

theorem invFlow_getAnswer {c : cacheStruct} {t : Nat} (h : invFlow c t) {t' : Nat}
    (hle : t ≤ t') (op : String) (x y : ℚ) :
    invFlow (getAnswer op x y t' c).2 t' := by
  have h1 : invFlow (c.cleanup t') t' := invFlow_cleanup (invFlow_mono h hle) t'
  cases hfound : ((c.cleanup t').get (fingerprint op x y) t').2.1 with
  | true =>
    rw [getAnswer_found hfound]
    exact invFlow_get h1 le_rfl (fingerprint op x y)
  | false =>
    have hp : alookup (c.cleanup t').hash (fingerprint op x y) = none := by
      cases hl : alookup (c.cleanup t').hash (fingerprint op x y) with
      | none => rfl
      | some p =>
        obtain ⟨en, e, hen, hkey, hel, hmem, hlem⟩ := h1.raw.wf.hashOk _ p hl
        rw [get_hit t' hl hen hel] at hfound
        cases hfound
    by_cases hadd : op = "add"
    · rw [getAnswer_miss_add hadd hp]
      exact invFlow_set h1 le_rfl hp ⟨op, x, y, Or.inl hadd, rfl, by simp [doMathPure, hadd]⟩
    · by_cases hsubtract : op = "subtract"
      · rw [getAnswer_miss_subtract hsubtract hp]
        exact invFlow_set h1 le_rfl hp
          ⟨op, x, y, Or.inr (Or.inl hsubtract), rfl, by simp [doMathPure, hsubtract]⟩
      · by_cases hmultiply : op = "multiply"
        · rw [getAnswer_miss_multiply hmultiply hp]
          exact invFlow_set h1 le_rfl hp
            ⟨op, x, y, Or.inr (Or.inr (Or.inl hmultiply)), rfl,
              by simp [doMathPure, hmultiply]⟩
        · by_cases hdivide : op = "divide"
          · by_cases hy : y = 0
            · rw [getAnswer_miss_div_zero hdivide hy hp]
              exact h1
            · rw [getAnswer_miss_divide hdivide hy hp]
              exact invFlow_set h1 le_rfl hp
                ⟨op, x, y, Or.inr (Or.inr (Or.inr ⟨hdivide, hy⟩)), rfl,
                  by simp [doMathPure, hdivide, hadd, hsubtract, hmultiply]⟩
          · rw [getAnswer_miss_invalid hadd hsubtract hmultiply hdivide hp]
            exact h1

theorem flowReach_invFlow {s : cacheStruct} {t : Nat} (h : flowReach s t) : invFlow s t := by
  induction h with
  | init t => exact invFlow_newCache t
  | step op x y hreach hle ih => exact invFlow_getAnswer ih hle op x y

/-! ### Exact characterization of cleanup -/

theorem mem_entriesOf {s : cacheStruct} {e p : Nat} {en : cacheEntry}
    (he : e ∈ s.listOrder) (hlep : alookup s.listElems e = some p)
    (hen : alookup s.heap p = some en) : en ∈ entriesOf s := by
  rw [entriesOf]
  exact List.mem_filterMap.mpr ⟨e, he, by simp [elemEntry, hlep, hen]⟩

theorem cleanupLoop_hash_char (now t : Nat) : ∀ (l : List Nat) (c : cacheStruct),
    invFlow c t → c.listOrder = l → ∀ (k : String) (p : Nat),
    alookup (cleanupLoop now c l).hash k = some p ↔
      (alookup c.hash k = some p ∧
        ∃ en, alookup c.heap p = some en ∧ ¬ en.time + cacheExpireSeconds < now) := by
  intro l
  induction l with
  | nil =>
    intro c h hl k p
    constructor
    · intro hp
      obtain ⟨en, e, hen, hkey, hel, hmem, hlem⟩ := h.raw.wf.hashOk k p hp
      rw [hl] at hmem
      cases hmem
    · intro ⟨hp, _⟩
      obtain ⟨en, e, hen, hkey, hel, hmem, hlem⟩ := h.raw.wf.hashOk k p hp
      rw [hl] at hmem
      cases hmem
  | cons e rest ih =>
    intro c h hl k p
    have hmem0 : e ∈ c.listOrder := by rw [hl]; exact List.mem_cons_self e rest
    obtain ⟨p0, en0, h1, h2, hel0⟩ := h.raw.wf.elemOk e hmem0
    by_cases h3 : en0.time + cacheExpireSeconds < now
    · simp only [cleanupLoop, h1, h2, if_pos h3]
      have hstep := invFlow_cleanup_step h hmem0 h1 h2
      have hl' : ({ c with
          listOrder := c.listOrder.erase e,
          listElems := aerase c.listElems e,
          hash := aerase c.hash en0.key } : cacheStruct).listOrder = rest := by
        show c.listOrder.erase e = rest
        rw [hl, List.erase_cons_head]
      rw [ih _ hstep hl' k p]
      have hhash : ({ c with
          listOrder := c.listOrder.erase e,
          listElems := aerase c.listElems e,
          hash := aerase c.hash en0.key } : cacheStruct).hash = aerase c.hash en0.key := rfl
      have hheap : ({ c with
          listOrder := c.listOrder.erase e,
          listElems := aerase c.listElems e,
          hash := aerase c.hash en0.key } : cacheStruct).heap = c.heap := rfl
      rw [hhash, hheap, alookup_aerase]
      by_cases hk : k = en0.key
      · rw [if_pos hk]
        constructor
        · intro ⟨hfalse, _⟩
          cases hfalse
        · intro ⟨hp, en, hen, hexp⟩
          exfalso
          subst hk
          have hcomp0 : alookup c.hash en0.key = some p0 := h.complete e hmem0 p0 en0 h1 h2
          have hpp : p = p0 := Option.some.inj (hp.symm.trans hcomp0)
          subst hpp
          have : en = en0 := Option.some.inj (hen.symm.trans h2)
          subst this
          exact hexp h3
      · rw [if_neg hk]
    · simp only [cleanupLoop, h1, h2, if_neg h3]
      constructor
      · intro hp
        refine ⟨hp, ?_⟩
        obtain ⟨en, e', hen, hkey, hel, hmem, hlem⟩ := h.raw.wf.hashOk k p hp
        refine ⟨en, hen, ?_⟩
        have henm : en ∈ entriesOf c := mem_entriesOf hmem hlem hen
        have hentries : entriesOf c = en0 :: rest.filterMap (elemEntry c) := by
          rw [entriesOf, hl, List.filterMap_cons]
          simp [elemEntry, h1, h2]
        have htimes : listTimes c = en0.time :: (rest.filterMap (elemEntry c)).map
            (fun en => en.time) := by
          rw [listTimes, hentries, List.map_cons]
        have hsorted := h.raw.sorted
        rw [htimes] at hsorted
        have hpw := List.pairwise_cons.mp hsorted
        rw [hentries] at henm
        rcases List.mem_cons.mp henm with henm | henm
        · subst henm
          exact h3
        · have : en0.time ≤ en.time := hpw.1 en.time
            (List.mem_map.mpr ⟨en, henm, rfl⟩)
          omega
      · intro ⟨hp, _⟩
        exact hp

theorem cleanup_hash_char {c : cacheStruct} {t : Nat} (h : invFlow c t) (now : Nat)
    (k : String) (p : Nat) :
    alookup (c.cleanup now).hash k = some p ↔
      (alookup c.hash k = some p ∧
        ∃ en, alookup c.heap p = some en ∧ ¬ en.time + cacheExpireSeconds < now) :=
  cleanupLoop_hash_char now t c.listOrder c h rfl k p

theorem cleanup_hash_none_of_expired {c : cacheStruct} {t : Nat} (h : invFlow c t)
    {now : Nat} {k : String} {p : Nat} {en : cacheEntry}
    (hp : alookup c.hash k = some p) (hen : alookup c.heap p = some en)
    (hexp : en.time + cacheExpireSeconds < now) :
    alookup (c.cleanup now).hash k = none := by
  cases hl : alookup (c.cleanup now).hash k with
  | none => rfl
  | some q =>
    obtain ⟨hq, en2, hen2, hexp2⟩ := (cleanup_hash_char h now k q).mp hl
    have hpq : q = p := Option.some.inj (hq.symm.trans hp)
    subst hpq
    have : en2 = en := Option.some.inj (hen2.symm.trans hen)
    subst this
    exact absurd hexp hexp2

/-! ### Effect of a request on a different key -/

theorem cleanup_hash_none {c : cacheStruct} {now : Nat} {k : String}
    (hp : alookup c.hash k = none) : alookup (c.cleanup now).hash k = none := by
  cases hl : alookup (c.cleanup now).hash k with
  | none => rfl
  | some q =>
    have := cleanupLoop_hash_some now c.listOrder c k q hl
    rw [hp] at this
    cases this

theorem get_state_of_not_found {c : cacheStruct} {k : String} {now : Nat}
    (h : (c.get k now).2.1 = false) : (c.get k now).2.2 = c := by
  cases h1 : alookup c.hash k with
  | none => rw [get_miss now h1]
  | some p =>
    cases h2 : alookup c.heap p with
    | none => simp [cacheStruct.get, h1, h2]
    | some item =>
      cases h3 : item.element with
      | none => simp [cacheStruct.get, h1, h2, h3] at h
      | some e => simp [cacheStruct.get, h1, h2, h3] at h

theorem getAnswer_hash_other_none {c : cacheStruct} (op : String) (x y : ℚ) (t' : Nat)
    {K : String} (hne : fingerprint op x y ≠ K) (hp : alookup c.hash K = none) :
    alookup (getAnswer op x y t' c).2.hash K = none := by
  have h1 : alookup (c.cleanup t').hash K = none := cleanup_hash_none hp
  have hgethash : ((c.cleanup t').get (fingerprint op x y) t').2.2.hash =
      (c.cleanup t').hash := get_hash _ _ _
  simp only [getAnswer]
  split
  · rw [hgethash]
    exact h1
  · split
    · rw [set_hash, alookup_ainsert_ne _ _ _ (fun hh => hne hh.symm), hgethash]
      exact h1
    · split
      · rw [set_hash, alookup_ainsert_ne _ _ _ (fun hh => hne hh.symm), hgethash]
        exact h1
      · split
        · rw [set_hash, alookup_ainsert_ne _ _ _ (fun hh => hne hh.symm), hgethash]
          exact h1
        · split
          · split
            · rw [hgethash]
              exact h1
            · rw [set_hash, alookup_ainsert_ne _ _ _ (fun hh => hne hh.symm), hgethash]
              exact h1
          · rw [hgethash]
            exact h1

theorem getAnswer_other_key {c : cacheStruct} {t : Nat} (h : invFlow c t) (op : String)
    (x y : ℚ) (t' : Nat) {K : String} (hne : fingerprint op x y ≠ K) {p : Nat}
    {en : cacheEntry} (hp : alookup c.hash K = some p)
    (hen : alookup c.heap p = some en) :
    alookup (getAnswer op x y t' c).2.hash K = none ∨
      (alookup (getAnswer op x y t' c).2.hash K = some p ∧
        alookup (getAnswer op x y t' c).2.heap p = some en) := by
  have h1 : invFlow (c.cleanup t') t := invFlow_cleanup h t'
  have hheap1 : (c.cleanup t').heap = c.heap := cleanupLoop_heap t' c.listOrder c
  have hKstat : alookup (c.cleanup t').hash K = none ∨
      alookup (c.cleanup t').hash K = some p := by
    cases hcl : alookup (c.cleanup t').hash K with
    | none => exact Or.inl rfl
    | some q =>
      have hq := cleanupLoop_hash_some t' c.listOrder c K q hcl
      have : q = p := Option.some.inj (hq.symm.trans hp)
      subst this
      exact Or.inr rfl
  have hhen1 : alookup (c.cleanup t').heap p = some en := by rw [hheap1]; exact hen
  cases hfound : ((c.cleanup t').get (fingerprint op x y) t').2.1 with
  | true =>
    rw [getAnswer_found hfound]
    cases hreq : alookup (c.cleanup t').hash (fingerprint op x y) with
    | none =>
      rw [get_miss t' hreq] at hfound
      cases hfound
    | some preq =>
      obtain ⟨enq, eq', henq, hkeyq, helq, hmemq, hleq⟩ := h1.raw.wf.hashOk _ preq hreq
      rw [get_hit t' hreq henq helq]
      rcases hKstat with hK | hK
      · exact Or.inl hK
      · right
        refine ⟨hK, ?_⟩
        have hpne : p ≠ preq := by
          intro hpp
          subst hpp
          exact hne (wf_key_of_ptr h1.raw.wf hreq hK)
        show alookup (ainsert (c.cleanup t').heap preq { enq with time := t' }) p = some en
        rw [alookup_ainsert_ne _ _ _ hpne]
        exact hhen1
  | false =>
    have hreq : alookup (c.cleanup t').hash (fingerprint op x y) = none := by
      cases hl : alookup (c.cleanup t').hash (fingerprint op x y) with
      | none => rfl
      | some q =>
        obtain ⟨enq, eq', henq, hkeyq, helq, hmemq, hleq⟩ := h1.raw.wf.hashOk _ q hl
        rw [get_hit t' hl henq helq] at hfound
        cases hfound
    have hsetcase : ∀ v : ℚ,
        alookup ((c.cleanup t').set (fingerprint op x y) v t').hash K = none ∨
          (alookup ((c.cleanup t').set (fingerprint op x y) v t').hash K = some p ∧
            alookup ((c.cleanup t').set (fingerprint op x y) v t').heap p = some en) := by
      intro v
      rw [set_hash, set_heap]
      rcases hKstat with hK | hK
      · left
        rw [alookup_ainsert_ne _ _ _ (fun hh => hne hh.symm)]
        exact hK
      · right
        have hpb : p < (c.cleanup t').fresh := h1.raw.wf.hashBound K p hK
        constructor
        · rw [alookup_ainsert_ne _ _ _ (fun hh => hne hh.symm)]
          exact hK
        · rw [alookup_ainsert_ne _ _ _ (show p ≠ (c.cleanup t').fresh by omega)]
          exact hhen1
    have hidcase :
        alookup (c.cleanup t').hash K = none ∨
          (alookup (c.cleanup t').hash K = some p ∧
            alookup (c.cleanup t').heap p = some en) := by
      rcases hKstat with hK | hK
      · exact Or.inl hK
      · exact Or.inr ⟨hK, hhen1⟩
    by_cases hadd : op = "add"
    · rw [getAnswer_miss_add hadd hreq]
      exact hsetcase (x + y)
    · by_cases hsubtract : op = "subtract"
      · rw [getAnswer_miss_subtract hsubtract hreq]
        exact hsetcase (x - y)
      · by_cases hmultiply : op = "multiply"
        · rw [getAnswer_miss_multiply hmultiply hreq]
          exact hsetcase (x * y)
        · by_cases hdivide : op = "divide"
          · by_cases hy : y = 0
            · rw [getAnswer_miss_div_zero hdivide hy hreq]
              exact hidcase
            · rw [getAnswer_miss_divide hdivide hy hreq]
              exact hsetcase (x / y)
          · rw [getAnswer_miss_invalid hadd hsubtract hmultiply hdivide hreq]
            exact hidcase

/-! ### Runs of requests -/

theorem flowRun_invFlow : ∀ (rs : List request) (c : cacheStruct) (t t' : Nat),
    invFlow c t →
    List.Chain (fun a b => a ≤ b) t (rs.map (fun r => r.time) ++ [t']) →
    invFlow (flowRun c rs) t' := by
  intro rs
  induction rs with
  | nil =>
    intro c t t' h hchain
    simp only [List.map_nil, List.nil_append, List.chain_cons] at hchain
    exact invFlow_mono h hchain.1
  | cons r rest ih =>
    intro c t t' h hchain
    simp only [List.map_cons, List.cons_append, List.chain_cons] at hchain
    obtain ⟨hle, hchain⟩ := hchain
    show invFlow (flowRun (getAnswer r.op r.x r.y r.time c).2 rest) t'
    exact ih _ r.time t' (invFlow_getAnswer h hle r.op r.x r.y) hchain

theorem flowRun_hash_none {K : String} : ∀ (rs : List request) (c : cacheStruct),
    (∀ r ∈ rs, fingerprint r.op r.x r.y ≠ K) → alookup c.hash K = none →
    alookup (flowRun c rs).hash K = none := by
  intro rs
  induction rs with
  | nil => intro c _ hp; exact hp
  | cons r rest ih =>
    intro c hne hp
    show alookup (flowRun (getAnswer r.op r.x r.y r.time c).2 rest).hash K = none
    exact ih _ (fun q hq => hne q (List.mem_cons_of_mem r hq))
      (getAnswer_hash_other_none r.op r.x r.y r.time
        (hne r (List.mem_cons_self r rest)) hp)

theorem flowRun_other_keys {K : String} : ∀ (rs : List request) (c : cacheStruct)
    (t t' : Nat), invFlow c t →
    List.Chain (fun a b => a ≤ b) t (rs.map (fun r => r.time) ++ [t']) →
    (∀ r ∈ rs, fingerprint r.op r.x r.y ≠ K) →
    ∀ {p : Nat} {en : cacheEntry}, alookup c.hash K = some p →
    alookup c.heap p = some en →
    alookup (flowRun c rs).hash K = none ∨
      (alookup (flowRun c rs).hash K = some p ∧
        alookup (flowRun c rs).heap p = some en) := by
  intro rs
  induction rs with
  | nil =>
    intro c t t' _ _ _ p en hp hen
    exact Or.inr ⟨hp, hen⟩
  | cons r rest ih =>
    intro c t t' h hchain hne p en hp hen
    simp only [List.map_cons, List.cons_append, List.chain_cons] at hchain
    obtain ⟨hle, hchain⟩ := hchain
    have hstep := getAnswer_other_key h r.op r.x r.y r.time
      (hne r (List.mem_cons_self r rest)) hp hen
    have hinv1 : invFlow (getAnswer r.op r.x r.y r.time c).2 r.time :=
      invFlow_getAnswer h hle r.op r.x r.y
    show alookup (flowRun (getAnswer r.op r.x r.y r.time c).2 rest).hash K = none ∨ _
    rcases hstep with hnone | ⟨hsome, hheap⟩
    · exact Or.inl (flowRun_hash_none rest _
        (fun q hq => hne q (List.mem_cons_of_mem r hq)) hnone)
    · exact ih _ r.time t' hinv1 hchain
        (fun q hq => hne q (List.mem_cons_of_mem r hq)) hsome hheap

/-! ### Claim theorems -/

/-- C8: the key derivation formatting (operation, x, y) as "op;x;y" is
deterministic and injective on the input domain: two triples with
operations among add, subtract, multiply, divide and rational operand
values (the model of parsed float64 parameters) that produce the same key
are the same triple; in particular swapping the operands of divide yields
a different key. -/
theorem c8_fingerprint_injective :
    (∀ (op1 op2 : String) (x1 y1 x2 y2 : ℚ),
      op1 ∈ (["add", "subtract", "multiply", "divide"] : List String) →
      op2 ∈ (["add", "subtract", "multiply", "divide"] : List String) →
      fingerprint op1 x1 y1 = fingerprint op2 x2 y2 →
      op1 = op2 ∧ x1 = x2 ∧ y1 = y2) ∧
    (∀ x y : ℚ, x ≠ y → fingerprint "divide" x y ≠ fingerprint "divide" y x) := by
  constructor
  · intro op1 op2 x1 y1 x2 y2 _ _ heq
    exact fingerprint_inj heq
  · intro x y hxy heq
    exact hxy (fingerprint_inj heq).2.1

/-- Witness for C8 at a concrete input: swapping the operands of divide
produces a different key. -/
theorem c8_witness : fingerprint "divide" 1 2 ≠ fingerprint "divide" 2 1 :=
  c8_fingerprint_injective.2 1 2 (by norm_num)

/-- C3 counterexample: `get` performs no expiry check.  In the state with
one entry for key "k" inserted at time 0, `get` at time 60 (age 60 = TTL,
so the claim requires not-found with no mutation) instead returns the
cached value with found = true, advances the timestamp to 60, and keeps
the entry in the index. -/
theorem c3_counterexample :
    (newCache.set "k" 3 0).get "k" 60 =
      (3, true,
        { heap := [(0, { key := "k", answer := 3, time := 60, element := some 1 })],
          hash := [("k", 0)],
          listElems := [(1, 0)],
          listOrder := [1],
          fresh := 2 }) := by
  decide

/-- C3 amended: `get` checks presence only, never age.  For every key
present in the index — whatever its age — `get` returns the stored answer
with found = true, refreshes the entry's timestamp to now in place, moves
the entry's node to the back of the recency list (the node is unlinked
from its position and relinked last), and leaves the lookup hash
unchanged (the entry is neither removed nor re-inserted); expiry is
enforced solely by `cleanup`, which `getAnswer` runs before `get`. -/
theorem c3_get_ignores_age {c : cacheStruct} {k : String} {p : Nat}
    {en : cacheEntry} {e : Nat} (now : Nat)
    (hp : alookup c.hash k = some p) (hen : alookup c.heap p = some en)
    (hel : en.element = some e) (hmem : e ∈ c.listOrder) :
    (c.get k now).1 = en.answer ∧ (c.get k now).2.1 = true ∧
      (c.get k now).2.2.hash = c.hash ∧
      alookup (c.get k now).2.2.heap p = some { en with time := now } ∧
      (c.get k now).2.2.listOrder = c.listOrder.erase e ++ [e] := by
  rw [get_hit now hp hen hel]
  refine ⟨rfl, rfl, rfl, alookup_ainsert_self _ _ _, ?_⟩
  show moveToBack c.listOrder e = c.listOrder.erase e ++ [e]
  rw [moveToBack, if_pos hmem]

/-- Witness for C3 amended at a concrete expired entry (age 100 at the
time of the call, far past the TTL): the value is returned as found, the
timestamp is refreshed, and the node is moved to the back. -/
theorem c3_witness :
    ((newCache.set "k" 3 0).get "k" 100).1 = 3 ∧
      ((newCache.set "k" 3 0).get "k" 100).2.1 = true ∧
      ((newCache.set "k" 3 0).get "k" 100).2.2.hash = (newCache.set "k" 3 0).hash ∧
      alookup ((newCache.set "k" 3 0).get "k" 100).2.2.heap 0 =
        some { key := "k", answer := 3, time := 100, element := some 1 } ∧
      ((newCache.set "k" 3 0).get "k" 100).2.2.listOrder =
        (newCache.set "k" 3 0).listOrder.erase 1 ++ [1] := by
  have hp : alookup (newCache.set "k" 3 0).hash "k" = some 0 := by decide
  have hen : alookup (newCache.set "k" 3 0).heap 0 =
      some { key := "k", answer := 3, time := 0, element := some 1 } := by decide
  have hel : ({ key := "k", answer := 3, time := 0, element := some 1 } :
      cacheEntry).element = some 1 := rfl
  have hmem : 1 ∈ (newCache.set "k" 3 0).listOrder := by decide
  exact c3_get_ignores_age 100 hp hen hel hmem

/-- C4 counterexample: the sweep removes only entries strictly older than
the TTL.  An entry inserted at time 0 has age exactly 60 = TTL at time 60,
so the claim requires its removal, but `cleanup` at time 60 removes
nothing: the state is unchanged and the key is still reachable. -/
theorem c4_counterexample :
    (newCache.set "k" 3 0).cleanup 60 = newCache.set "k" 3 0 ∧
      alookup ((newCache.set "k" 3 0).cleanup 60).hash "k" = some 0 := by
  decide

/-- C4 amended: a single cleanup pass at time now, from any state the
request flow can reach, removes exactly the entries whose age strictly
exceeds the TTL: a key remains reachable afterwards precisely when it was
reachable before and its entry satisfies time + TTL not strictly less
than now.  (In particular all strictly-expired entries are removed in one
pass, and no entry aged at most TTL is removed.) -/
theorem c4_cleanup_exact {s : cacheStruct} {t : Nat} (hreach : flowReach s t)
    (now : Nat) (k : String) (p : Nat) :
    alookup (s.cleanup now).hash k = some p ↔
      (alookup s.hash k = some p ∧
        ∃ en, alookup s.heap p = some en ∧
          ¬ en.time + cacheExpireSeconds < now) :=
  cleanup_hash_char (flowReach_invFlow hreach) now k p

/-- Witness for C4 amended: the characterization applied to the concrete
one-entry state produced by one request at time 0, swept at time 61. -/
theorem c4_witness :
    alookup (((getAnswer "add" 1 2 0 newCache).2.cleanup 61).hash)
        (fingerprint "add" 1 2) = some 0 ↔
      (alookup (getAnswer "add" 1 2 0 newCache).2.hash (fingerprint "add" 1 2) = some 0 ∧
        ∃ en, alookup (getAnswer "add" 1 2 0 newCache).2.heap 0 = some en ∧
          ¬ en.time + cacheExpireSeconds < 61) :=
  c4_cleanup_exact (flowReach.step "add" 1 2 (flowReach.init 0) (le_refl 0)) 61
    (fingerprint "add" 1 2) 0

/-- C10: in every state reachable by the orchestrated request flow, the
lookup hash and the recency list hold exactly the same entries: every hash
binding resolves to a live entry carrying that key whose element field
points to a live list node holding that same entry pointer, and every
list node's entry is reachable back through the hash under its own key —
so get's move-to-back acts on the entry's own node and cleanup's hash
deletion removes exactly the entry of the node it unlinks. -/
theorem c10_hash_list_consistency {s : cacheStruct} {t : Nat}
    (hreach : flowReach s t) :
    (∀ k p, alookup s.hash k = some p → ∃ en e,
      alookup s.heap p = some en ∧ en.key = k ∧ en.element = some e ∧
      e ∈ s.listOrder ∧ alookup s.listElems e = some p) ∧
    (∀ e ∈ s.listOrder, ∃ p en,
      alookup s.listElems e = some p ∧ alookup s.heap p = some en ∧
      en.element = some e ∧ alookup s.hash en.key = some p) := by
  have h := flowReach_invFlow hreach
  constructor
  · exact h.raw.wf.hashOk
  · intro e he
    obtain ⟨p, en, hp, hen, hel⟩ := h.raw.wf.elemOk e he
    exact ⟨p, en, hp, hen, hel, h.complete e he p en hp hen⟩

/-- Witness for C10: the correspondence evaluated on the concrete state
produced by one request. -/
theorem c10_witness : ∃ en e,
    alookup (getAnswer "add" 1 2 0 newCache).2.heap 0 = some en ∧
      en.key = fingerprint "add" 1 2 ∧ en.element = some e ∧
      e ∈ (getAnswer "add" 1 2 0 newCache).2.listOrder ∧
      alookup (getAnswer "add" 1 2 0 newCache).2.listElems e = some 0 := by
  have heq : getAnswer "add" 1 2 0 newCache = (Except.ok ((1 : ℚ) + 2, false),
      (newCache.cleanup 0).set (fingerprint "add" 1 2) (1 + 2) 0) :=
    getAnswer_miss_add rfl rfl
  have hp : alookup (getAnswer "add" 1 2 0 newCache).2.hash (fingerprint "add" 1 2) =
      some 0 := by
    rw [heq]
    exact alookup_ainsert_self _ _ _
  exact (c10_hash_list_consistency
    (flowReach.step "add" 1 2 (flowReach.init 0) (le_refl 0))).1 _ 0 hp

theorem runRaw_hash_none {K : String} : ∀ (ops : List (rawOp × Nat)) (c : cacheStruct),
    (∀ o ∈ ops, ∀ v : ℚ, o.1 ≠ rawOp.opSet K v) → alookup c.hash K = none →
    alookup (runRaw c ops).hash K = none := by
  intro ops
  induction ops with
  | nil => intro c _ hp; exact hp
  | cons o rest ih =>
    intro c hne hp
    obtain ⟨o1, tm⟩ := o
    show alookup (runRaw (applyRaw c (o1, tm)) rest).hash K = none
    refine ih _ (fun q hq => hne q (List.mem_cons_of_mem _ hq)) ?_
    cases o1 with
    | opGet k =>
      show alookup ((c.get k tm).2.2).hash K = none
      rw [get_hash]
      exact hp
    | opSet k v =>
      have hk : k ≠ K := by
        intro hkk
        subst hkk
        exact hne (rawOp.opSet k v, tm) (List.mem_cons_self _ _) v rfl
      show alookup ((c.set k v tm)).hash K = none
      rw [set_hash, alookup_ainsert_ne _ _ _ (fun hh => hk hh.symm)]
      exact hp
    | opCleanup =>
      exact cleanup_hash_none hp

/-- C7: round-trip.  First, for every key, value and prior cache state,
`Set(K, V)` immediately followed by `Get(K)` within the TTL returns
(V, true).  Second, for every key never passed to `set` during a sequence
of raw operations from the fresh cache, `get` returns not-found (the zero
value and found = false). -/
theorem c7_roundtrip :
    (∀ (s : cacheStruct) (K : String) (V : ℚ) (tset tget : Nat),
      tget ≤ tset + cacheExpireSeconds →
      ((s.set K V tset).get K tget).1 = V ∧
        ((s.set K V tset).get K tget).2.1 = true) ∧
    (∀ (ops : List (rawOp × Nat)) (K : String),
      (∀ o ∈ ops, ∀ v : ℚ, o.1 ≠ rawOp.opSet K v) →
      ∀ tget : Nat, ((runRaw newCache ops).get K tget).1 = 0 ∧
        ((runRaw newCache ops).get K tget).2.1 = false) := by
  constructor
  · intro s K V tset tget _
    have hp : alookup (s.set K V tset).hash K = some s.fresh := by
      rw [set_hash]
      exact alookup_ainsert_self _ _ _
    have hen : alookup (s.set K V tset).heap s.fresh =
        some { key := K, answer := V, time := tset, element := some (s.fresh + 1) } := by
      rw [set_heap]
      exact alookup_ainsert_self _ _ _
    rw [get_hit tget hp hen rfl]
    exact ⟨rfl, rfl⟩
  · intro ops K hne tget
    have hp : alookup (runRaw newCache ops).hash K = none :=
      runRaw_hash_none ops newCache hne rfl
    rw [get_miss tget hp]
    exact ⟨rfl, rfl⟩

/-- Witness for C7: the round-trip at a concrete key and value, and the
not-found guarantee after a concrete run that never sets the key. -/
theorem c7_witness :
    (((newCache.set "k" 3 0).get "k" 10).1 = 3 ∧
      ((newCache.set "k" 3 0).get "k" 10).2.1 = true) ∧
    (((runRaw newCache [(rawOp.opGet "a", 0)]).get "k" 5).1 = 0 ∧
      ((runRaw newCache [(rawOp.opGet "a", 0)]).get "k" 5).2.1 = false) := by
  constructor
  · exact c7_roundtrip.1 newCache "k" 3 0 10 (by decide)
  · refine c7_roundtrip.2 [(rawOp.opGet "a", 0)] "k" ?_ 5
    intro o ho v
    simp only [List.mem_singleton] at ho
    subst ho
    intro hh
    cases hh

/-- C6 counterexample: raw `set` on a key already present does not replace
the stale entry everywhere: after two raw sets of key "k" (at times 0 and
50) the recency list holds two entries for "k" (one orphaned), and the
next cleanup (at time 70) deletes the hash binding of the fresh entry
while its node stays in the list — the fresh value becomes unreachable. -/
theorem c6_counterexample :
    ((entriesOf (runRaw newCache
        [(rawOp.opSet "k" 1, 0), (rawOp.opSet "k" 2, 50)])).filter
          (fun en => en.key == "k")).length = 2 ∧
      alookup ((runRaw newCache
        [(rawOp.opSet "k" 1, 0), (rawOp.opSet "k" 2, 50)]).cleanup 70).hash "k" =
          none ∧
      ((runRaw newCache
        [(rawOp.opSet "k" 1, 0), (rawOp.opSet "k" 2, 50)]).cleanup 70).listOrder =
          [3] := by
  decide

/-- C6 amended: `set` always succeeds — the key maps to the freshly
allocated entry afterwards.  Under the orchestrated flow, where `set` is
only invoked on keys the preceding `get` reported absent, every key has at
most one entry across the cache's structures: no two live list nodes hold
entries with the same key, and every node's entry is reachable through the
hash (no orphans).  A raw `set` on an already-present key, however, leaves
the old node in the recency list (see the counterexample). -/
theorem c6_flow_unique {s : cacheStruct} {t : Nat} (hreach : flowReach s t) :
    (∀ (k : String) (v : ℚ) (now : Nat), alookup (s.set k v now).hash k = some s.fresh) ∧
    (∀ e1 ∈ s.listOrder, ∀ e2 ∈ s.listOrder, ∀ p1 p2 en1 en2,
      alookup s.listElems e1 = some p1 → alookup s.heap p1 = some en1 →
      alookup s.listElems e2 = some p2 → alookup s.heap p2 = some en2 →
      en1.key = en2.key → e1 = e2) ∧
    (∀ e ∈ s.listOrder, ∀ p en, alookup s.listElems e = some p →
      alookup s.heap p = some en → alookup s.hash en.key = some p) := by
  have h := flowReach_invFlow hreach
  refine ⟨?_, ?_, h.complete⟩
  · intro k v now
    rw [set_hash]
    exact alookup_ainsert_self _ _ _
  · intro e1 he1 e2 he2 p1 p2 en1 en2 hle1 hh1 hle2 hh2 hkk
    have hc1 : alookup s.hash en1.key = some p1 := h.complete e1 he1 p1 en1 hle1 hh1
    have hc2 : alookup s.hash en2.key = some p2 := h.complete e2 he2 p2 en2 hle2 hh2
    rw [hkk] at hc1
    have hpp : p1 = p2 := Option.some.inj (hc1.symm.trans hc2)
    subst hpp
    have hee : en1 = en2 := Option.some.inj (hh1.symm.trans hh2)
    obtain ⟨pa, ena, hpa, hha, hela⟩ := h.raw.wf.elemOk e1 he1
    obtain ⟨pb, enb, hpb, hhb, helb⟩ := h.raw.wf.elemOk e2 he2
    have hpa' : pa = p1 := Option.some.inj (hpa.symm.trans hle1)
    have hpb' : pb = p1 := Option.some.inj (hpb.symm.trans hle2)
    have hena : ena = en1 := by
      apply Option.some.inj
      rw [← hha, ← hh1, hpa']
    have henb : enb = en2 := by
      apply Option.some.inj
      rw [← hhb, ← hh2, hpb']
    have : (some e1 : Option Nat) = some e2 := by
      rw [← hela, ← helb, hena, henb, hee]
    exact Option.some.inj this

/-- Witness for C6 amended: `set` makes the key map to the fresh entry in
a concrete state. -/
theorem c6_witness : alookup (newCache.set "k" 3 5).hash "k" = some newCache.fresh :=
  (c6_flow_unique (flowReach.init 0)).1 "k" 3 5

/-- C5: recency-list sort invariant.  In every state reachable from
`newCache` by raw `get`/`set`/`cleanup` operations under a non-decreasing
clock, the lastTouched timestamps are non-decreasing from the front of the
recency list to the back; and across any further single operation at the
current or a later time, the lastTouched of any key present before and
after only ever advances, never rolls back. -/
theorem c5_recency_sorted {s : cacheStruct} {t : Nat} (hreach : rawReach s t) :
    List.Pairwise (fun a b => a ≤ b) (listTimes s) ∧
    (∀ (op : rawOp) (t' : Nat), t ≤ t' →
      ∀ (k : String) (p : Nat) (en : cacheEntry) (p' : Nat) (en' : cacheEntry),
      alookup s.hash k = some p → alookup s.heap p = some en →
      alookup (applyRaw s (op, t')).hash k = some p' →
      alookup (applyRaw s (op, t')).heap p' = some en' →
      en.time ≤ en'.time) := by
  have hinv := rawReach_invRaw hreach
  refine ⟨hinv.sorted, ?_⟩
  intro op t' hle k p en p' en' hp hen hp' hen'
  have htime : en.time ≤ t := by
    obtain ⟨en2, e, hen2, hkey, hel, hmem, hlem⟩ := hinv.wf.hashOk k p hp
    have hee : en2 = en := Option.some.inj (hen2.symm.trans hen)
    subst hee
    exact hinv.timesLe en2 (mem_entriesOf hmem hlem hen2)
  cases op with
  | opGet k0 =>
    have hp'2 : alookup ((s.get k0 t').2.2).hash k = some p' := hp'
    have hen'2 : alookup ((s.get k0 t').2.2).heap p' = some en' := hen'
    cases h0 : alookup s.hash k0 with
    | none =>
      rw [get_miss t' h0] at hp'2 hen'2
      have hpp : p' = p := Option.some.inj (hp'2.symm.trans hp)
      subst hpp
      have : en' = en := Option.some.inj (hen'2.symm.trans hen)
      subst this
      exact le_rfl
    | some p0 =>
      obtain ⟨en0, e0, hen0, hkey0, hel0, hmem0, hlem0⟩ := hinv.wf.hashOk k0 p0 h0
      rw [get_hit t' h0 hen0 hel0] at hp'2 hen'2
      have hp'3 : alookup s.hash k = some p' := hp'2
      have hpp : p' = p := Option.some.inj (hp'3.symm.trans hp)
      subst hpp
      have hen'3 : alookup (ainsert s.heap p0 { en0 with time := t' }) p' = some en' :=
        hen'2
      by_cases hpq : p' = p0
      · subst hpq
        rw [alookup_ainsert_self] at hen'3
        have : en' = { en0 with time := t' } := Option.some.inj hen'3.symm
        subst this
        show en.time ≤ t'
        omega
      · rw [alookup_ainsert_ne _ _ _ hpq] at hen'3
        have : en' = en := Option.some.inj (hen'3.symm.trans hen)
        subst this
        exact le_rfl
  | opSet k0 v =>
    have hp'2 : alookup (ainsert s.hash k0 s.fresh) k = some p' := hp'
    have hen'2 : alookup (ainsert s.heap s.fresh
      { key := k0, answer := v, time := t', element := some (s.fresh + 1) }) p' =
        some en' := hen'
    by_cases hkk : k = k0
    · subst hkk
      rw [alookup_ainsert_self] at hp'2
      have hpf : p' = s.fresh := Option.some.inj hp'2.symm
      subst hpf
      rw [alookup_ainsert_self] at hen'2
      have : en' = { key := k, answer := v, time := t', element := some (s.fresh + 1) } :=
        Option.some.inj hen'2.symm
      subst this
      show en.time ≤ t'
      omega
    · rw [alookup_ainsert_ne _ _ _ hkk] at hp'2
      have hpp : p' = p := Option.some.inj (hp'2.symm.trans hp)
      subst hpp
      have hpb : p' < s.fresh := hinv.wf.hashBound k p' hp
      rw [alookup_ainsert_ne _ _ _ (show p' ≠ s.fresh by omega)] at hen'2
      have : en' = en := Option.some.inj (hen'2.symm.trans hen)
      subst this
      exact le_rfl
  | opCleanup =>
    have hp'2 : alookup (s.cleanup t').hash k = some p' := hp'
    have hen'2 : alookup (s.cleanup t').heap p' = some en' := hen'
    have hp'3 : alookup s.hash k = some p' := cleanupLoop_hash_some t' s.listOrder s k p' hp'2
    have hpp : p' = p := Option.some.inj (hp'3.symm.trans hp)
    subst hpp
    rw [show (s.cleanup t').heap = s.heap from cleanupLoop_heap t' s.listOrder s] at hen'2
    have : en' = en := Option.some.inj (hen'2.symm.trans hen)
    subst this
    exact le_rfl

/-- Witness for C5: the sort invariant on a concrete one-entry state, and
a concrete timestamp advance (a get at time 5 bumps the entry inserted at
time 0). -/
theorem c5_witness :
    List.Pairwise (fun a b => a ≤ b)
      (listTimes (applyRaw newCache (rawOp.opSet "k" 3, 0))) ∧
    ({ key := "k", answer := 3, time := 0, element := some 1 } : cacheEntry).time ≤
      ({ key := "k", answer := 3, time := 5, element := some 1 } : cacheEntry).time := by
  have h := c5_recency_sorted
    (rawReach.step (rawOp.opSet "k" 3) (rawReach.init 0) (le_refl 0))
  refine ⟨h.1, ?_⟩
  exact h.2 (rawOp.opGet "k") 5 (by omega) "k" 0
    { key := "k", answer := 3, time := 0, element := some 1 } 0
    { key := "k", answer := 3, time := 5, element := some 1 }
    (by decide) (by decide) (by decide) (by decide)

/-- C1: cache transparency.  For every request whose operation is add,
subtract or multiply (any operands), or divide with a nonzero divisor,
and from any state the request flow can reach — whatever the prior
sequence of requests — `getAnswer` returns the pure arithmetic result
`doMathPure op x y`, the same value the cache-less implementation of
`src/unnamed/part_000` computes, whether the answer was served from the
cache (cached = true) or freshly computed (cached = false). -/
theorem c1_cache_transparency {s : cacheStruct} {t : Nat} (hreach : flowReach s t)
    {now : Nat} (hle : t ≤ now) {op : String} {x y : ℚ} (hv : validOp op y) :
    ∃ cached : Bool,
      (getAnswer op x y now s).1 = Except.ok (doMathPure op x y, cached) := by
  have h := flowReach_invFlow hreach
  have h1 : invFlow (s.cleanup now) now := invFlow_cleanup (invFlow_mono h hle) now
  cases hreq : alookup (s.cleanup now).hash (fingerprint op x y) with
  | some p =>
    obtain ⟨en, e, hen, hkey, hel, hmem, hlem⟩ := h1.raw.wf.hashOk _ p hreq
    have hfound : ((s.cleanup now).get (fingerprint op x y) now).2.1 = true := by
      rw [get_hit now hreq hen hel]
    refine ⟨true, ?_⟩
    rw [getAnswer_found hfound]
    show Except.ok (((s.cleanup now).get (fingerprint op x y) now).1, true) = _
    rw [get_hit now hreq hen hel]
    show Except.ok (en.answer, true) = _
    obtain ⟨op', x', y', hv', hkf, hans⟩ := h1.semantic _ p hreq en hen
    obtain ⟨hop, hx, hy⟩ := fingerprint_inj hkf
    rw [hans, ← hop, ← hx, ← hy]
  | none =>
    rcases hv with hop | hop | hop | ⟨hop, hy⟩
    · exact ⟨false, by rw [getAnswer_miss_add hop hreq]; simp [doMathPure, hop]⟩
    · exact ⟨false, by rw [getAnswer_miss_subtract hop hreq]; simp [doMathPure, hop]⟩
    · exact ⟨false, by rw [getAnswer_miss_multiply hop hreq]; simp [doMathPure, hop]⟩
    · exact ⟨false, by rw [getAnswer_miss_divide hop hy hreq]; simp [doMathPure, hop]⟩

/-- Witness for C1: a concrete add request on the fresh cache returns the
pure arithmetic result. -/
theorem c1_witness : ∃ cached : Bool,
    (getAnswer "add" 1 2 0 newCache).1 = Except.ok (doMathPure "add" 1 2, cached) :=
  c1_cache_transparency (flowReach.init 0) (le_refl 0) (Or.inl rfl)

/-- C9 counterexample: the error is NOT surfaced before the cache is
called.  Starting from the state with one cached add-result inserted at
time 0, the divide-by-zero request at time 100 does return the error and
stores nothing for its own key, but it mutates the cache first: the
cleanup that `getAnswer` runs before the error check evicts the aged add
entry, so the cache state after the failed request differs from the state
before it. -/
theorem c9_counterexample :
    (getAnswer "divide" 1 0 100 (getAnswer "add" 1 2 0 newCache).2).1 =
        Except.error "Cannot divide by zero" ∧
      (getAnswer "divide" 1 0 100 (getAnswer "add" 1 2 0 newCache).2).2.hash ≠
        (getAnswer "add" 1 2 0 newCache).2.hash ∧
      alookup (getAnswer "divide" 1 0 100 (getAnswer "add" 1 2 0 newCache).2).2.hash
          (fingerprint "add" 1 2) = none ∧
      alookup (getAnswer "divide" 1 0 100 (getAnswer "add" 1 2 0 newCache).2).2.hash
          (fingerprint "divide" 1 0) = none := by
  decide

/-- C9 amended: from any state the request flow can reach, a divide
request with a zero divisor, and any request with an operation outside
the four supported ones, make `getAnswer` return an error and insert
nothing: the resulting state is exactly the post-cleanup state (so the
cache IS consulted — cleanup runs and the key misses — before the error
is surfaced), and the request's own key is never stored. -/
theorem c9_error_no_store {s : cacheStruct} {t : Nat} (hreach : flowReach s t)
    (now : Nat) (x y : ℚ) :
    (y = 0 → getAnswer "divide" x y now s =
        (Except.error "Cannot divide by zero", s.cleanup now) ∧
      alookup (getAnswer "divide" x y now s).2.hash (fingerprint "divide" x y) =
        none) ∧
    (∀ op : String, op ∉ (["add", "subtract", "multiply", "divide"] : List String) →
      getAnswer op x y now s =
        (Except.error ("Invalid operation: " ++ op), s.cleanup now)) := by
  have h1 : invFlow (s.cleanup now) t := invFlow_cleanup (flowReach_invFlow hreach) now
  constructor
  · intro hy0
    subst hy0
    have habs : alookup (s.cleanup now).hash (fingerprint "divide" x 0) = none := by
      cases hl : alookup (s.cleanup now).hash (fingerprint "divide" x 0) with
      | none => rfl
      | some p =>
        exfalso
        obtain ⟨en, e, hen, hkey, hel, hmem, hlem⟩ := h1.raw.wf.hashOk _ p hl
        obtain ⟨op', x', y', hv', hkf, hans⟩ := h1.semantic _ p hl en hen
        obtain ⟨hop, hx, hy⟩ := fingerprint_inj hkf
        rcases hv' with h' | h' | h' | ⟨h', hy'⟩
        · rw [← hop] at h'
          exact absurd h' (by decide)
        · rw [← hop] at h'
          exact absurd h' (by decide)
        · rw [← hop] at h'
          exact absurd h' (by decide)
        · exact hy' hy.symm
    have heq : getAnswer "divide" x 0 now s =
        (Except.error "Cannot divide by zero", s.cleanup now) :=
      getAnswer_miss_div_zero rfl rfl habs
    refine ⟨heq, ?_⟩
    rw [heq]
    exact habs
  · intro op hmem
    have h1' : op ≠ "add" := fun hh => hmem (by rw [hh]; simp)
    have h2' : op ≠ "subtract" := fun hh => hmem (by rw [hh]; simp)
    have h3' : op ≠ "multiply" := fun hh => hmem (by rw [hh]; simp)
    have h4' : op ≠ "divide" := fun hh => hmem (by rw [hh]; simp)
    have habs : alookup (s.cleanup now).hash (fingerprint op x y) = none := by
      cases hl : alookup (s.cleanup now).hash (fingerprint op x y) with
      | none => rfl
      | some p =>
        exfalso
        obtain ⟨en, e, hen, hkey, hel, hmem', hlem⟩ := h1.raw.wf.hashOk _ p hl
        obtain ⟨op', x', y', hv', hkf, hans⟩ := h1.semantic _ p hl en hen
        obtain ⟨hop, hx, hy⟩ := fingerprint_inj hkf
        rcases hv' with h' | h' | h' | ⟨h', hy'⟩
        · exact h1' (hop.trans h')
        · exact h2' (hop.trans h')
        · exact h3' (hop.trans h')
        · exact h4' (hop.trans h')
    exact getAnswer_miss_invalid h1' h2' h3' h4' habs

/-- Witness for C9 amended: the divide-by-zero request on the fresh cache
returns the error and leaves the (empty) post-cleanup state. -/
theorem c9_witness :
    getAnswer "divide" 1 0 0 newCache =
        (Except.error "Cannot divide by zero", newCache.cleanup 0) ∧
      alookup (getAnswer "divide" 1 0 0 newCache).2.hash (fingerprint "divide" 1 0) =
        none :=
  (c9_error_no_store (flowReach.init 0) 0 1 0).1 rfl

/-- C2: TTL expiry with TTL = 60.  If the request flow reaches a state
holding an entry for the fingerprint of a valid request, last touched at
time `en.time` (by the `set` that created it or the last `get` refresh),
and any further requests none of which touches that fingerprint run under
a non-decreasing clock, then the same request issued at any time strictly
later than `en.time + TTL` is answered by recomputation and reported as
not cached: the entry has expired and the flow returns found = false. -/
theorem c2_ttl_expiry {s : cacheStruct} {t : Nat} (hreach : flowReach s t)
    {op : String} {x y : ℚ} (hv : validOp op y) {p : Nat} {en : cacheEntry}
    (hp : alookup s.hash (fingerprint op x y) = some p)
    (hen : alookup s.heap p = some en)
    (rs : List request) {t' : Nat}
    (hchain : List.Chain (fun a b => a ≤ b) t (rs.map (fun r => r.time) ++ [t']))
    (hnot : ∀ r ∈ rs, fingerprint r.op r.x r.y ≠ fingerprint op x y)
    (hexp : en.time + cacheExpireSeconds < t') :
    (getAnswer op x y t' (flowRun s rs)).1 =
      Except.ok (doMathPure op x y, false) := by
  have h := flowReach_invFlow hreach
  have h2 : invFlow (flowRun s rs) t' := flowRun_invFlow rs s t t' h hchain
  have hK := flowRun_other_keys rs s t t' h hchain hnot hp hen
  have hreq : alookup ((flowRun s rs).cleanup t').hash (fingerprint op x y) = none := by
    rcases hK with hnone | ⟨hsome, hheap⟩
    · exact cleanup_hash_none hnone
    · exact cleanup_hash_none_of_expired h2 hsome hheap hexp
  rcases hv with hop | hop | hop | ⟨hop, hy⟩
  · rw [getAnswer_miss_add hop hreq]
    simp [doMathPure, hop]
  · rw [getAnswer_miss_subtract hop hreq]
    simp [doMathPure, hop]
  · rw [getAnswer_miss_multiply hop hreq]
    simp [doMathPure, hop]
  · rw [getAnswer_miss_divide hop hy hreq]
    simp [doMathPure, hop]

/-- Witness for C2: the add-entry inserted at time 0 is reported not
cached when the same request returns at time 100, past the TTL. -/
theorem c2_witness :
    (getAnswer "add" 1 2 100 (flowRun (getAnswer "add" 1 2 0 newCache).2 [])).1 =
      Except.ok (doMathPure "add" 1 2, false) := by
  have hs : flowReach (getAnswer "add" 1 2 0 newCache).2 0 :=
    flowReach.step "add" 1 2 (flowReach.init 0) (le_refl 0)
  have heq : getAnswer "add" 1 2 0 newCache = (Except.ok ((1 : ℚ) + 2, false),
      (newCache.cleanup 0).set (fingerprint "add" 1 2) (1 + 2) 0) :=
    getAnswer_miss_add rfl rfl
  have hp : alookup (getAnswer "add" 1 2 0 newCache).2.hash (fingerprint "add" 1 2) =
      some 0 := by
    rw [heq]
    exact alookup_ainsert_self _ _ _
  have hen : alookup (getAnswer "add" 1 2 0 newCache).2.heap 0 =
      some { key := fingerprint "add" 1 2, answer := 1 + 2, time := 0,
             element := some 1 } := by
    rw [heq]
    exact alookup_ainsert_self _ _ _
  exact c2_ttl_expiry hs (Or.inl rfl) hp hen []
    (List.Chain.cons (by omega) List.Chain.nil)
    (by simp)
    (by decide)
